import Mathlib

/-!
Verification of the Sudoku puzzle engine in `src/context/SudokuContext.jsx`.

The engine operates on grids represented as JavaScript arrays of arrays of
numbers.  We shallowly embed them as `List (List Nat)`; `board[r][c]` becomes
`getCell g r c` (out-of-range reads default to `0`; the JavaScript code only
reads in range, so every theorem quantifies over in-range indices or
well-formed grids).  In-place mutation of the grid during backtracking is
embedded as explicit state passing: the search functions return the grid
alongside the count, so that the "grid is restored on return" property is a
theorem about the returned grid.  `Math.random` has no counterpart in a pure
embedding; the Fisher–Yates shuffled visit order of the digger is
externalized as an explicit `indices : List Nat` parameter, and theorems
quantify over every such order.
-/

/-- A Sudoku grid: row-major matrix of cell values, `0` = empty cell. -/
abbrev Grid : Type := List (List Nat)

/-- The row `board[r]` (empty list when out of range). -/
def getRow (g : Grid) (r : Nat) : List Nat :=
  (g[r]?).getD []

/-- `board[r][c]` with out-of-range reads defaulting to `0`. -/
def getCell (g : Grid) (r c : Nat) : Nat :=
  ((getRow g r)[c]?).getD 0

/-- `board[r][c] = v` (a no-op when out of range, like `List.set`). -/
def setCell (g : Grid) (r c v : Nat) : Grid :=
  List.set g r ((getRow g r).set c v)

/-- `clone2D` from the source: `array.map((row) => [...row])`. -/
def clone2D (g : Grid) : Grid :=
  g.map (fun row => row.map (fun x => x))

/-- A grid is well formed for `size` when it is a `size × size` matrix. -/
def wellFormed (g : Grid) (size : Nat) : Prop :=
  g.length = size ∧ ∀ row ∈ g, row.length = size

instance (g : Grid) (size : Nat) : Decidable (wellFormed g size) := by
  unfold wellFormed
  infer_instance

/-- All cell values of the grid are at most `size` (the spec's data model:
entries of a Grid lie in `[0, N]`). -/
def entriesLe (g : Grid) (size : Nat) : Prop :=
  ∀ r c : Nat, getCell g r c ≤ size

/-- The fixed complete 6x6 solution grid (`SOLUTION_6` in the source). -/
def SOLUTION_6 : Grid :=
  [[1, 2, 3, 4, 5, 6],
   [4, 5, 6, 1, 2, 3],
   [2, 3, 4, 5, 6, 1],
   [5, 6, 1, 2, 3, 4],
   [3, 4, 5, 6, 1, 2],
   [6, 1, 2, 3, 4, 5]]

/-- The fixed complete 9x9 solution grid (`SOLUTION_9` in the source). -/
def SOLUTION_9 : Grid :=
  [[1, 2, 3, 4, 5, 6, 7, 8, 9],
   [4, 5, 6, 7, 8, 9, 1, 2, 3],
   [7, 8, 9, 1, 2, 3, 4, 5, 6],
   [2, 3, 4, 5, 6, 7, 8, 9, 1],
   [5, 6, 7, 8, 9, 1, 2, 3, 4],
   [8, 9, 1, 2, 3, 4, 5, 6, 7],
   [3, 4, 5, 6, 7, 8, 9, 1, 2],
   [6, 7, 8, 9, 1, 2, 3, 4, 5],
   [9, 1, 2, 3, 4, 5, 6, 7, 8]]

/-- `getBlockDimensions`: 6x6 uses 2x3 blocks, everything else 3x3. -/
def getBlockDimensions (size : Nat) : Nat × Nat :=
  if size = 6 then (2, 3) else (3, 3)

/-- The candidate values `1 .. size` tried by the search (`for num = 1;
num <= size; num++`). -/
def rangeFromOne (size : Nat) : List Nat :=
  (List.range size).map (fun k => k + 1)

/-- `isSafe(board, row, col, num, size)`: the row scan, column scan and
block scan of the source, each an early-exit loop returning `false` on the
first occurrence of `num` (embedded as `List.all`). -/
def isSafe (board : Grid) (row col num size : Nat) : Bool :=
  let bd := getBlockDimensions size
  let startRow := row - row % bd.1
  let startCol := col - col % bd.2
  ((List.range size).all fun c => !(getCell board row c == num)) &&
  ((List.range size).all fun r => !(getCell board r col == num)) &&
  ((List.range bd.1).all fun dr =>
    (List.range bd.2).all fun dc =>
      !(getCell board (startRow + dr) (startCol + dc) == num))

/-- The double loop of `countSolutions` locating the first empty cell in
row-major order (the `outer:` labelled loop). -/
def findEmpty (board : Grid) (size : Nat) : Option (Nat × Nat) :=
  (List.range size).findSome? fun r =>
    ((List.range size).find? fun c => getCell board r c == 0).map fun c => (r, c)

/-- The candidate loop `for num = 1..size` inside `backtrack`, with the
recursive call abstracted as `bt`.  It threads the mutated board explicitly:
place `num`, recurse, un-place, and early-exit once the count reaches
`limit`. -/
def tryNums (bt : Grid → Nat → Grid × Nat) (size limit row col : Nat) :
    List Nat → Grid → Nat → Grid × Nat
  | [], g, cnt => (g, cnt)
  | num :: rest, g, cnt =>
    if isSafe g row col num size then
      let res := bt (setCell g row col num) cnt
      let g3 := setCell res.1 row col 0
      if limit ≤ res.2 then (g3, res.2)
      else tryNums bt size limit row col rest g3 res.2
    else tryNums bt size limit row col rest g cnt

/-- The recursive `backtrack()` closure of `countSolutions`, with the board
and count passed (and returned) explicitly instead of mutated in place.
`fuel` bounds the recursion depth; it strictly dominates the number of empty
cells, so with the fuel used by `countSolutions` it never runs out. -/
def backtrack (size limit : Nat) : Nat → Grid → Nat → Grid × Nat
  | 0, g, cnt => (g, cnt)
  | fuel + 1, g, cnt =>
    if limit ≤ cnt then (g, cnt)
    else
      match findEmpty g size with
      | none => (g, cnt + 1)
      | some (r, c) =>
        tryNums (backtrack size limit fuel) size limit r c (rangeFromOne size) g cnt

/-- `countSolutions` together with the final state of its (transiently
mutated) board argument. -/
def countSolutionsRun (board : Grid) (size limit : Nat) : Grid × Nat :=
  backtrack size limit (size * size + 1) board 0

/-- `countSolutions(board, size, limit = 2)`: the returned count. -/
def countSolutions (board : Grid) (size : Nat) (limit : Nat := 2) : Nat :=
  (countSolutionsRun board size limit).2

/-- The hole-digging loop of `makeUniquePuzzleFromSolution`: visit `indices`
in order, stop once `maxToRemove` cells were removed, tentatively zero each
visited nonzero cell and keep the removal only when the cloned board still
has exactly one solution (`countSolutions(temp, size, 2)`). -/
def digLoop (size maxToRemove : Nat) : List Nat → Grid → Nat → Grid
  | [], board, _ => board
  | idx :: rest, board, removed =>
    if maxToRemove ≤ removed then board
    else
      let r := idx / size
      let c := idx % size
      if getCell board r c = 0 then digLoop size maxToRemove rest board removed
      else
        let backup := getCell board r c
        let board1 := setCell board r c 0
        let temp := clone2D board1
        if countSolutions temp size 2 ≠ 1 then
          digLoop size maxToRemove rest (setCell board1 r c backup) removed
        else
          digLoop size maxToRemove rest board1 (removed + 1)

/-- `makeUniquePuzzleFromSolution(solution, cluesCount)`.  The Fisher–Yates
shuffled visit order produced from `Math.random` is externalized as the
`indices` parameter; theorems quantify over every order, hence over every
possible shuffle outcome. -/
def makeUniquePuzzleFromSolution (solution : Grid) (cluesCount : Nat)
    (indices : List Nat) : Grid :=
  let size := solution.length
  let totalCells := size * size
  let board := clone2D solution
  let maxToRemove := totalCells - cluesCount
  digLoop size maxToRemove indices board 0

/-- The cells of row `r` scanned by the row pass of `computeErrors`. -/
def rowGroup (size r : Nat) : List (Nat × Nat) :=
  (List.range size).map fun c => (r, c)

/-- The cells of column `c` scanned by the column pass of `computeErrors`. -/
def colGroup (size c : Nat) : List (Nat × Nat) :=
  (List.range size).map fun r => (r, c)

/-- The cells of the block with origin `(br, bc)` and dimensions
`bR × bC`, in the scan order of the source's block loops. -/
def blockGroup (bR bC br bc : Nat) : List (Nat × Nat) :=
  (List.range bR).flatMap fun dr => (List.range bC).map fun dc => (br + dr, bc + dc)

/-- The block origins visited by `for (let br = 0; br < size; br += blockRows)`:
exactly the multiples of `step` below `size`. -/
def blockStarts (size step : Nat) : List Nat :=
  (List.range size).filter fun b => b % step == 0

/-- The three families of constraint groups (all rows, all columns, all
blocks) in the order `computeErrors` scans them. -/
def groups (size : Nat) : List (List (Nat × Nat)) :=
  ((List.range size).map fun r => rowGroup size r) ++
  ((List.range size).map fun c => colGroup size c) ++
  ((blockStarts size (getBlockDimensions size).1).flatMap fun br =>
    (blockStarts size (getBlockDimensions size).2).map fun bc =>
      blockGroup (getBlockDimensions size).1 (getBlockDimensions size).2 br bc)

/-- No constraint group contains two distinct cells holding the same nonzero
value (the spec's notion of a grid without row/column/box duplicates). -/
def ValidGrid (g : Grid) (size : Nat) : Prop :=
  ∀ grp ∈ groups size, ∀ p ∈ grp, ∀ q ∈ grp,
    p ≠ q → getCell g p.1 p.2 ≠ 0 → getCell g p.1 p.2 ≠ getCell g q.1 q.2

instance (g : Grid) (size : Nat) : Decidable (ValidGrid g size) := by
  unfold ValidGrid
  infer_instance

/-- The cells of one constraint group marked by `computeErrors`: the source
buckets the group's nonzero values (`seen[v]`) and marks every member of a
bucket with more than one occupant; a cell is in such a bucket exactly when
at least two cells of the group (itself included) hold its value. -/
def dupCells (g : Grid) (cells : List (Nat × Nat)) : List (Nat × Nat) :=
  cells.filter fun p =>
    !(getCell g p.1 p.2 == 0) &&
      decide (2 ≤ cells.countP fun q => getCell g q.1 q.2 == getCell g p.1 p.2)

/-- `computeErrors(board, size)`: the violation set, modelling the source's
`{ "r-c": true }` object as a finite set of coordinates. -/
def computeErrors (g : Grid) (size : Nat) : Finset (Nat × Nat) :=
  ((groups size).flatMap fun cells => dupCells g cells).toFinset

/-- All in-range cell coordinates, row-major. -/
def allCells (size : Nat) : List (Nat × Nat) :=
  (List.range size).flatMap fun r => (List.range size).map fun c => (r, c)

/-- The number of in-range empty cells of a grid. -/
def countZeros (size : Nat) (g : Grid) : Nat :=
  (allCells size).countP fun p => getCell g p.1 p.2 == 0

/-- All ways to fill every empty cell of `g` (located in the same first-empty
order as the search) with values `1 .. size`, with no legality filtering.
`fuel` strictly dominates `countZeros size g`, so it never runs out. -/
def fillAll (size : Nat) : Nat → Grid → List Grid
  | 0, _ => []
  | fuel + 1, g =>
    match findEmpty g size with
    | none => [g]
    | some (r, c) =>
      (rangeFromOne size).flatMap fun v => fillAll size fuel (setCell g r c v)

/-- The distinct completions of `g`: full fillings of its empty cells with
values `1 .. size` that satisfy every row/column/block constraint. -/
def completionsList (g : Grid) (size : Nat) : List Grid :=
  (fillAll size (countZeros size g + 1) g).filter fun g2 => decide (ValidGrid g2 size)

/-- The actual number of distinct solutions of the grid. -/
def numCompletions (g : Grid) (size : Nat) : Nat :=
  (completionsList g size).length

/-- The property of being a completion, stated directly: a well-formed full
grid over `1 .. size` that extends the nonzero cells of `g` and violates no
constraint. -/
def IsCompletion (g g2 : Grid) (size : Nat) : Prop :=
  wellFormed g2 size ∧
  (∀ r c, r < size → c < size → 1 ≤ getCell g2 r c ∧ getCell g2 r c ≤ size) ∧
  (∀ r c, r < size → c < size → getCell g r c ≠ 0 → getCell g2 r c = getCell g r c) ∧
  ValidGrid g2 size

/-- The candidate accumulation loop of `giveHint` for one cell: try each
value, keep it when the trial placement does not mark `(r, c)` in the
violation set, and break out as soon as more than one candidate is found. -/
def collectCands (board : Grid) (size r c : Nat) :
    List Nat → List Nat → List Nat
  | [], acc => acc
  | v :: rest, acc =>
    let acc2 :=
      if (r, c) ∈ computeErrors (setCell board r c v) size then acc else acc ++ [v]
    if 1 < acc2.length then acc2 else collectCands board size r c rest acc2

/-- The candidate list computed by `giveHint` at cell `(r, c)`. -/
def candidatesAt (board : Grid) (size r c : Nat) : List Nat :=
  collectCands board size r c (rangeFromOne size) []

/-- The row-major cell scan of `giveHint`, expressed over the flat cell index
`i = r * size + c`; the remaining-cell count is the recursion measure. -/
def scanHint (board : Grid) (size : Nat) : Nat → Nat → Option (Nat × Nat)
  | 0, _ => none
  | k + 1, i =>
    let r := i / size
    let c := i % size
    if getCell board r c ≠ 0 then scanHint board size k (i + 1)
    else if (candidatesAt board size r c).length = 1 then some (r, c)
    else scanHint board size k (i + 1)

/-- The cell `giveHint` selects, if any: the first empty cell in row-major
order with exactly one non-conflicting candidate. -/
def findHint (board : Grid) (size : Nat) : Option (Nat × Nat) :=
  scanHint board size (size * size) 0

/-- A cell qualifies for a hint: it is empty and exactly one value in
`[1, size]` can be placed there without putting the cell itself into the
violation set. -/
def QualifiesHint (board : Grid) (size r c : Nat) : Prop :=
  getCell board r c = 0 ∧
  ∃! v, 1 ≤ v ∧ v ≤ size ∧ (r, c) ∉ computeErrors (setCell board r c v) size

/-- Game status (`'idle' | 'playing' | 'completed'`). -/
inductive Status where
  | idle : Status
  | playing : Status
  | completed : Status
deriving DecidableEq

/-- The provider state handled by `SudokuProvider` (the fields the claims
are about; the persistence side effects live outside the core). -/
structure GameState where
  mode : String
  size : Nat
  solutionBoard : Grid
  initialBoard : Grid
  board : Grid
  status : Status
  errors : Finset (Nat × Nat)
  elapsed : Nat
  hintCell : Option (Nat × Nat)
deriving DecidableEq

/-- The raw value arriving at `updateCell` from the input field, after the
JavaScript `Number(value)` coercion: the empty string (clear), `NaN`
(unparsable input), or a rational number (`Number.isInteger` decides
integrality, embedded as the denominator being 1). -/
inductive CellInput where
  | empty : CellInput
  | nan : CellInput
  | value : ℚ → CellInput
deriving DecidableEq

/-- The input validation of `updateCell` (source lines 342-349): the empty
string clears to 0; otherwise the value must be an integer in `[1, size]`,
else the edit is rejected (`none`). -/
def parseInput (v : CellInput) (size : Nat) : Option Nat :=
  match v with
  | CellInput.empty => some 0
  | CellInput.nan => none
  | CellInput.value q =>
    if q.den = 1 then
      if q.num < 1 ∨ (size : Int) < q.num then none else some q.num.toNat
    else none

/-- `updateCell(row, col, value)`. -/
def updateCell (s : GameState) (row col : Nat) (v : CellInput) : GameState :=
  if s.status ≠ Status.playing then s
  else if s.board.length = 0 then s
  else if getCell s.initialBoard row col ≠ 0 then s
  else
    match parseInput v s.size with
    | none => s
    | some num =>
      let next := setCell s.board row col num
      let nextErrors := computeErrors next s.size
      let hasEmpty := next.any fun r => r.contains 0
      let hasErrors := nextErrors ≠ ∅
      { s with
        board := next
        errors := nextErrors
        hintCell := none
        status := if ¬hasEmpty ∧ ¬hasErrors then Status.completed else Status.playing }

/-- A sequence of `updateCell` edits applied in order. -/
def applyEdits (s : GameState) (edits : List (Nat × Nat × CellInput)) : GameState :=
  edits.foldl (fun st e => updateCell st e.1 e.2.1 e.2.2) s

/-- `startNewGame(mode)`; the shuffled digging order is the `indices`
parameter (see `makeUniquePuzzleFromSolution`). -/
def startNewGame (newMode : String) (indices : List Nat) : GameState :=
  let isEasy := newMode = "easy"
  let solution := if isEasy then SOLUTION_6 else SOLUTION_9
  let clues := if isEasy then 18 else 30
  let puzzle := makeUniquePuzzleFromSolution solution clues indices
  { mode := newMode
    size := if isEasy then 6 else 9
    solutionBoard := clone2D solution
    initialBoard := clone2D puzzle
    board := clone2D puzzle
    status := Status.playing
    errors := ∅
    elapsed := 0
    hintCell := none }

/-- `giveHint()`. -/
def giveHint (s : GameState) : GameState :=
  if s.status ≠ Status.playing then s
  else if s.board.length = 0 then s
  else if s.size = 0 then s
  else
    match findHint s.board s.size with
    | some (r, c) => { s with hintCell := some (r, c) }
    | none => s

/-- The 6x6 solution with its `(0, 0)` cell dug out: a one-hole puzzle used
to instantiate theorems at concrete inputs. -/
def sampleBoard6 : Grid := setCell SOLUTION_6 0 0 0

/-- A mid-game state on the one-hole 6x6 puzzle. -/
def sampleState : GameState :=
  { mode := "easy"
    size := 6
    solutionBoard := SOLUTION_6
    initialBoard := sampleBoard6
    board := sampleBoard6
    status := Status.playing
    errors := ∅
    elapsed := 0
    hintCell := none }

/-- The spec's violation scenario: a board holding `1` at `(0, 3)` into
which the player has just placed `1` at `(0, 0)`. -/
def scenarioBoard : Grid := setCell (setCell sampleBoard6 0 3 1) 0 0 1

theorem clone2D_eq (g : Grid) : clone2D g = g := by
  unfold clone2D
  calc g.map (fun row => row.map fun x => x) = g.map id := by
        simp
    _ = g := List.map_id g

theorem list_set_getElem_self {α : Type} (l : List α) (i : Nat)
    (h : i < l.length) : l.set i (l[i]) = l := by
  apply List.ext_getElem (by simp)
  intro n h1 h2
  simp only [List.getElem_set]
  split
  · next he => subst he; rfl
  · rfl

theorem getRow_eq_getElem (g : Grid) (r : Nat) (hr : r < g.length) :
    getRow g r = g[r] := by
  unfold getRow
  simp [List.getElem?_eq_getElem hr]

theorem getRow_oob (g : Grid) (r : Nat) (hr : g.length ≤ r) :
    getRow g r = [] := by
  unfold getRow
  simp [List.getElem?_eq_none hr]

theorem getCell_eq_getElem (g : Grid) (r c : Nat) (hr : r < g.length)
    (hc : c < (g[r]).length) : getCell g r c = (g[r])[c] := by
  unfold getCell
  rw [getRow_eq_getElem g r hr]
  simp [List.getElem?_eq_getElem hc]

theorem getCell_row_oob (g : Grid) (r c : Nat) (hr : g.length ≤ r) :
    getCell g r c = 0 := by
  unfold getCell
  rw [getRow_oob g r hr]
  simp

theorem getCell_col_oob (g : Grid) (r c : Nat) (hr : r < g.length)
    (hc : (g[r]).length ≤ c) : getCell g r c = 0 := by
  unfold getCell
  rw [getRow_eq_getElem g r hr]
  simp [List.getElem?_eq_none hc]

/-- A nonzero read is always in range. -/
theorem lt_of_getCell_ne_zero (g : Grid) (r c : Nat) (h : getCell g r c ≠ 0) :
    ∃ hr : r < g.length, c < (g[r]).length := by
  by_cases hr : r < g.length
  · refine ⟨hr, ?_⟩
    by_contra hc
    exact h (getCell_col_oob g r c hr (Nat.le_of_not_lt hc))
  · exact absurd (getCell_row_oob g r c (Nat.le_of_not_lt hr)) h

theorem length_setCell (g : Grid) (r c v : Nat) :
    (setCell g r c v).length = g.length := by
  unfold setCell
  exact List.length_set g r ((getRow g r).set c v)

theorem wellFormed_setCell (g : Grid) (size r c v : Nat)
    (h : wellFormed g size) : wellFormed (setCell g r c v) size := by
  by_cases hr : r < g.length
  · obtain ⟨hlen, hrows⟩ := h
    constructor
    · rw [length_setCell]; exact hlen
    · intro row hrow
      unfold setCell at hrow
      rcases List.mem_or_eq_of_mem_set hrow with hmem | heq
      · exact hrows row hmem
      · subst heq
        rw [List.length_set]
        rw [getRow_eq_getElem g r hr]
        exact hrows _ (List.getElem_mem hr)
  · unfold setCell
    rw [List.set_eq_of_length_le (Nat.le_of_not_lt hr)]
    exact h

theorem getRow_setCell_self (g : Grid) (r c v : Nat) (hr : r < g.length) :
    getRow (setCell g r c v) r = (getRow g r).set c v := by
  unfold setCell getRow
  rw [List.getElem?_set_self hr]
  simp

theorem getRow_setCell_ne (g : Grid) (r c v r2 : Nat) (h : r2 ≠ r) :
    getRow (setCell g r c v) r2 = getRow g r2 := by
  unfold setCell getRow
  rw [List.getElem?_set_ne (fun he => h he.symm)]

theorem getCell_setCell_self (g : Grid) (r c v : Nat) (hr : r < g.length)
    (hc : c < (g[r]).length) : getCell (setCell g r c v) r c = v := by
  unfold getCell
  rw [getRow_setCell_self g r c v hr,
    List.getElem?_set_self (by rw [getRow_eq_getElem g r hr]; exact hc)]
  simp

theorem getCell_setCell_ne (g : Grid) (r c v r2 c2 : Nat)
    (h : r2 ≠ r ∨ c2 ≠ c) : getCell (setCell g r c v) r2 c2 = getCell g r2 c2 := by
  by_cases hr : r2 = r
  · subst hr
    have hc : c2 ≠ c := h.resolve_left (fun hne => hne rfl)
    by_cases hlt : r2 < g.length
    · unfold getCell
      rw [getRow_setCell_self g r2 c v hlt,
        List.getElem?_set_ne (fun he => hc he.symm)]
    · unfold setCell
      rw [List.set_eq_of_length_le (Nat.le_of_not_lt hlt)]
  · unfold getCell
    rw [getRow_setCell_ne g r c v r2 hr]

/-- Writing back the value a cell already holds leaves the grid unchanged. -/
theorem setCell_getCell_self (g : Grid) (r c : Nat) :
    setCell g r c (getCell g r c) = g := by
  unfold setCell getCell
  by_cases hr : r < g.length
  · rw [getRow_eq_getElem g r hr]
    by_cases hc : c < (g[r]).length
    · have : (g[r]).set c (((g[r])[c]?).getD 0) = g[r] := by
        rw [List.getElem?_eq_getElem hc]
        simp
        exact list_set_getElem_self _ c hc
      rw [this]
      exact list_set_getElem_self g r hr
    · rw [List.set_eq_of_length_le (Nat.le_of_not_lt hc)]
      exact list_set_getElem_self g r hr
  · exact List.set_eq_of_length_le (Nat.le_of_not_lt hr)

/-- Un-doing a placement at an empty cell restores the grid. -/
theorem setCell_setCell_zero (g : Grid) (r c v : Nat) (h : getCell g r c = 0) :
    setCell (setCell g r c v) r c 0 = g := by
  by_cases hr : r < g.length
  · have step : setCell (setCell g r c v) r c 0 = setCell g r c 0 := by
      show List.set (setCell g r c v) r ((getRow (setCell g r c v) r).set c 0) =
        List.set g r ((getRow g r).set c 0)
      rw [getRow_setCell_self g r c v hr, List.set_set]
      show List.set (List.set g r ((getRow g r).set c v)) r ((getRow g r).set c 0) = _
      rw [List.set_set]
    rw [step]
    conv_lhs => rw [← h]
    exact setCell_getCell_self g r c
  · unfold setCell
    rw [List.set_eq_of_length_le (Nat.le_of_not_lt hr),
      List.set_eq_of_length_le (Nat.le_of_not_lt hr)]

theorem findEmpty_some (g : Grid) (size r c : Nat)
    (h : findEmpty g size = some (r, c)) :
    r < size ∧ c < size ∧ getCell g r c = 0 := by
  unfold findEmpty at h
  obtain ⟨a, ha, hfa⟩ := List.exists_of_findSome?_eq_some h
  rcases hfind : (List.range size).find? fun c2 => getCell g a c2 == 0 with _ | c2
  · rw [hfind] at hfa; simp at hfa
  · rw [hfind] at hfa
    simp at hfa
    obtain ⟨h1, h2⟩ := hfa
    subst h1; subst h2
    refine ⟨List.mem_range.mp ha, List.mem_range.mp (List.mem_of_find?_eq_some hfind), ?_⟩
    have := List.find?_some hfind
    simpa using this

theorem findEmpty_none_iff (g : Grid) (size : Nat) :
    findEmpty g size = none ↔ ∀ r c, r < size → c < size → getCell g r c ≠ 0 := by
  unfold findEmpty
  rw [List.findSome?_eq_none_iff]
  constructor
  · intro h r c hr hc hz
    have := h r (List.mem_range.mpr hr)
    rcases hfind : (List.range size).find? fun c2 => getCell g r c2 == 0 with _ | c2
    · rw [List.find?_eq_none] at hfind
      exact hfind c (List.mem_range.mpr hc) (by simpa using hz)
    · rw [hfind] at this; simp at this
  · intro h r _
    rcases hfind : (List.range size).find? fun c2 => getCell g r c2 == 0 with _ | c2
    · simp
    · have hz := List.find?_some hfind
      have hc := List.mem_range.mp (List.mem_of_find?_eq_some hfind)
      by_cases hr : r < size
      · exact absurd (by simpa using hz) (h r c2 hr hc)
      · have : getCell g r c2 = 0 := by simpa using hz
        -- the outer findSome? only visits r < size, so this branch cannot arise;
        -- but the iff is stated over the visited rows only, so derive it anyway
        simp_all

/-- `tryNums` hands back exactly the board it was given: every tentative
placement is undone, also on the early-exit path. -/
theorem tryNums_fst (bt : Grid → Nat → Grid × Nat) (size limit row col : Nat)
    (hbt : ∀ g cnt, (bt g cnt).1 = g) :
    ∀ (nums : List Nat) (g : Grid) (cnt : Nat), getCell g row col = 0 →
      (tryNums bt size limit row col nums g cnt).1 = g := by
  intro nums
  induction nums with
  | nil => intro g cnt _; rfl
  | cons num rest ih =>
    intro g cnt hz
    unfold tryNums
    by_cases hs : isSafe g row col num size
    · rw [if_pos hs]
      have hres : (bt (setCell g row col num) cnt).1 = setCell g row col num := hbt _ _
      simp only [hres]
      rw [setCell_setCell_zero g row col num hz]
      by_cases hl : limit ≤ (bt (setCell g row col num) cnt).2
      · rw [if_pos hl]
      · rw [if_neg hl]
        exact ih g _ hz
    · rw [if_neg hs]
      exact ih g cnt hz

/-- `backtrack` hands back exactly the board it was given. -/
theorem backtrack_fst (size limit : Nat) :
    ∀ (fuel : Nat) (g : Grid) (cnt : Nat),
      (backtrack size limit fuel g cnt).1 = g := by
  intro fuel
  induction fuel with
  | zero => intro g cnt; rfl
  | succ fuel ih =>
    intro g cnt
    unfold backtrack
    by_cases hl : limit ≤ cnt
    · rw [if_pos hl]
    · rw [if_neg hl]
      rcases hfe : findEmpty g size with _ | ⟨r, c⟩
      · rfl
      · obtain ⟨-, -, hz⟩ := findEmpty_some g size r c hfe
        exact tryNums_fst (backtrack size limit fuel) size limit r c
          (fun g2 cnt2 => ih g2 cnt2) (rangeFromOne size) g cnt hz

/-- C4: `countSolutions` mutates its grid argument only transiently: when
the call returns, the board is exactly the board passed in — every placement
made during backtracking was undone, including on the early-exit path (the
early exit happens after the `board[row][col] = 0` restore). -/
theorem countSolutions_restores_board (board : Grid) (size limit : Nat) :
    (countSolutionsRun board size limit).1 = board ∧
    ∀ r c, getCell (countSolutionsRun board size limit).1 r c = getCell board r c := by
  have h : (countSolutionsRun board size limit).1 = board :=
    backtrack_fst size limit (size * size + 1) board 0
  exact ⟨h, fun r c => by rw [h]⟩

theorem isSafe_true_iff (g : Grid) (row col v size : Nat) :
    isSafe g row col v size = true ↔
      ((∀ c2, c2 < size → getCell g row c2 ≠ v) ∧
       (∀ r2, r2 < size → getCell g r2 col ≠ v) ∧
       (∀ dr, dr < (getBlockDimensions size).1 → ∀ dc, dc < (getBlockDimensions size).2 →
         getCell g (row - row % (getBlockDimensions size).1 + dr)
           (col - col % (getBlockDimensions size).2 + dc) ≠ v)) := by
  unfold isSafe
  simp only [Bool.and_eq_true, List.all_eq_true, List.mem_range, Bool.not_eq_true',
    beq_eq_false_iff_ne, ne_eq]
  constructor
  · rintro ⟨⟨h1, h2⟩, h3⟩
    exact ⟨h1, h2, h3⟩
  · rintro ⟨h1, h2, h3⟩
    exact ⟨⟨h1, h2⟩, h3⟩

/-- C3: `isSafe(grid, row, col, value, size)` returns `false` exactly when
`value` already occurs somewhere in row `row`, in column `col`, or within
the `blockRows × blockCols` box whose origin is
`(row - row % blockRows, col - col % blockCols)`; the block dimensions are
2x3 for size 6 and 3x3 for size 9.  (The embedding is purely functional, so
`isSafe` cannot modify the grid.) -/
theorem isSafe_false_iff (g : Grid) (row col v size : Nat)
    (_hsize : size = 6 ∨ size = 9) :
    (getBlockDimensions 6 = (2, 3) ∧ getBlockDimensions 9 = (3, 3)) ∧
    (isSafe g row col v size = false ↔
      ((∃ c2, c2 < size ∧ getCell g row c2 = v) ∨
       (∃ r2, r2 < size ∧ getCell g r2 col = v) ∨
       (∃ r2 c2,
         row - row % (getBlockDimensions size).1 ≤ r2 ∧
         r2 < row - row % (getBlockDimensions size).1 + (getBlockDimensions size).1 ∧
         col - col % (getBlockDimensions size).2 ≤ c2 ∧
         c2 < col - col % (getBlockDimensions size).2 + (getBlockDimensions size).2 ∧
         getCell g r2 c2 = v))) := by
  refine ⟨⟨rfl, rfl⟩, ?_⟩
  rw [← Bool.not_eq_true, isSafe_true_iff]
  constructor
  · intro h
    by_cases h1 : ∀ c2, c2 < size → getCell g row c2 ≠ v
    · by_cases h2 : ∀ r2, r2 < size → getCell g r2 col ≠ v
      · right; right
        push_neg at h
        obtain ⟨dr, hdr, dc, hdc, hv⟩ := h h1 h2
        exact ⟨row - row % (getBlockDimensions size).1 + dr,
          col - col % (getBlockDimensions size).2 + dc,
          Nat.le_add_right _ _, by omega, Nat.le_add_right _ _, by omega, hv⟩
      · right; left
        push_neg at h2
        obtain ⟨r2, hr2, hv⟩ := h2
        exact ⟨r2, hr2, hv⟩
    · left
      push_neg at h1
      obtain ⟨c2, hc2, hv⟩ := h1
      exact ⟨c2, hc2, hv⟩
  · rintro (⟨c2, hc2, hv⟩ | ⟨r2, hr2, hv⟩ | ⟨r2, c2, hr1, hr2, hc1, hc2, hv⟩) ⟨g1, g2, g3⟩
    · exact g1 c2 hc2 hv
    · exact g2 r2 hr2 hv
    · have e1 : row - row % (getBlockDimensions size).1 +
          (r2 - (row - row % (getBlockDimensions size).1)) = r2 := by omega
      have e2 : col - col % (getBlockDimensions size).2 +
          (c2 - (col - col % (getBlockDimensions size).2)) = c2 := by omega
      exact g3 (r2 - (row - row % (getBlockDimensions size).1)) (by omega)
        (c2 - (col - col % (getBlockDimensions size).2)) (by omega)
        (by rw [e1, e2]; exact hv)

/-- Witness for `isSafe_false_iff` at a concrete grid: placing a second 1 in
row 0 of the 6x6 solution with its (0,0) cell cleared. -/
theorem isSafe_false_iff_witness :
    ((6 : Nat) = 6 ∨ (6 : Nat) = 9) ∧
    ((getBlockDimensions 6 = (2, 3) ∧ getBlockDimensions 9 = (3, 3)) ∧
    (isSafe (setCell SOLUTION_6 0 0 0) 0 0 4 6 = false ↔
      ((∃ c2, c2 < 6 ∧ getCell (setCell SOLUTION_6 0 0 0) 0 c2 = 4) ∨
       (∃ r2, r2 < 6 ∧ getCell (setCell SOLUTION_6 0 0 0) r2 0 = 4) ∨
       (∃ r2 c2,
         0 - 0 % (getBlockDimensions 6).1 ≤ r2 ∧
         r2 < 0 - 0 % (getBlockDimensions 6).1 + (getBlockDimensions 6).1 ∧
         0 - 0 % (getBlockDimensions 6).2 ≤ c2 ∧
         c2 < 0 - 0 % (getBlockDimensions 6).2 + (getBlockDimensions 6).2 ∧
         getCell (setCell SOLUTION_6 0 0 0) r2 c2 = 4)))) :=
  ⟨Or.inl rfl, isSafe_false_iff (setCell SOLUTION_6 0 0 0) 0 0 4 6 (Or.inl rfl)⟩

/-- C10: `startNewGame` derives everything from whether `mode` equals
"easy": the solution board is the fixed 6x6 grid for "easy" and the fixed
9x9 grid for every other mode (with 18 resp. 30 clues requested from the
digger), so the solution board never depends on the random digging order. -/
theorem startNewGame_fixed_solution (mode : String) (indices : List Nat) :
    ((startNewGame mode indices).solutionBoard =
      if mode = "easy" then SOLUTION_6 else SOLUTION_9) ∧
    ((startNewGame mode indices).size = if mode = "easy" then 6 else 9) ∧
    ((startNewGame mode indices).initialBoard =
      makeUniquePuzzleFromSolution (if mode = "easy" then SOLUTION_6 else SOLUTION_9)
        (if mode = "easy" then 18 else 30) indices) ∧
    (∀ indices2, (startNewGame mode indices2).solutionBoard =
      (startNewGame mode indices).solutionBoard) := by
  by_cases h : mode = "easy" <;>
    simp [startNewGame, h, clone2D_eq]

/-- C9: `updateCell` silently rejects invalid input: when the raw value is
`NaN`, a non-integer number, or an integer outside `[1, size]`, or when the
game status is not "playing", the whole state is returned unchanged. -/
theorem updateCell_rejects_invalid (s : GameState) (row col : Nat) (v : CellInput)
    (h : s.status ≠ Status.playing ∨ v = CellInput.nan ∨
      ∃ q, v = CellInput.value q ∧
        (q.den ≠ 1 ∨ q.num < 1 ∨ (s.size : Int) < q.num)) :
    updateCell s row col v = s := by
  unfold updateCell
  rcases h with h | h | ⟨q, hq, hbad⟩
  · rw [if_pos h]
  · subst h
    split_ifs <;> rfl
  · subst hq
    have hnone : parseInput (CellInput.value q) s.size = none := by
      simp only [parseInput]
      rcases hbad with hden | hnum
      · rw [if_neg hden]
      · by_cases hden : q.den = 1
        · rw [if_pos hden, if_pos hnum]
        · rw [if_neg hden]
    split_ifs <;> simp [hnone]

/-- Witness for `updateCell_rejects_invalid`: editing with the non-integer
value 1/2 on a fresh easy game is a complete no-op. -/
theorem updateCell_rejects_invalid_witness :
    ((startNewGame "easy" []).status ≠ Status.playing ∨
      CellInput.value (mkRat 1 2) = CellInput.nan ∨
      ∃ q, CellInput.value (mkRat 1 2) = CellInput.value q ∧
        (q.den ≠ 1 ∨ q.num < 1 ∨ ((startNewGame "easy" []).size : Int) < q.num)) ∧
    updateCell (startNewGame "easy" []) 0 0 (CellInput.value (mkRat 1 2)) =
      startNewGame "easy" [] := by
  have h : (startNewGame "easy" []).status ≠ Status.playing ∨
      CellInput.value (mkRat 1 2) = CellInput.nan ∨
      ∃ q, CellInput.value (mkRat 1 2) = CellInput.value q ∧
        (q.den ≠ 1 ∨ q.num < 1 ∨ ((startNewGame "easy" []).size : Int) < q.num) :=
    Or.inr (Or.inr ⟨mkRat 1 2, rfl, Or.inl (by decide)⟩)
  exact ⟨h, updateCell_rejects_invalid _ 0 0 _ h⟩

theorem updateCell_initialBoard (s : GameState) (row col : Nat) (v : CellInput) :
    (updateCell s row col v).initialBoard = s.initialBoard := by
  unfold updateCell
  split_ifs <;> first
    | rfl
    | (rcases parseInput v s.size with _ | num <;> rfl)

/-- Editing a clue cell (nonzero in the initial board) is a silent no-op. -/
theorem updateCell_clue_noop (s : GameState) (row col : Nat) (v : CellInput)
    (h : getCell s.initialBoard row col ≠ 0) : updateCell s row col v = s := by
  unfold updateCell
  split_ifs <;> rfl

theorem updateCell_preserves_clues (s : GameState) (row col : Nat) (v : CellInput)
    (hinv : ∀ r c, getCell s.initialBoard r c ≠ 0 →
      getCell s.board r c = getCell s.initialBoard r c) :
    ∀ r c, getCell (updateCell s row col v).initialBoard r c ≠ 0 →
      getCell (updateCell s row col v).board r c =
        getCell (updateCell s row col v).initialBoard r c := by
  intro r c
  rw [updateCell_initialBoard]
  intro hne
  unfold updateCell
  split_ifs with h1 h2 h3
  · exact hinv r c hne
  · exact hinv r c hne
  · exact hinv r c hne
  · rcases hp : parseInput v s.size with _ | num
    · simp only [hp]
      exact hinv r c hne
    · simp only [hp]
      have hcell : (r, c) ≠ (row, col) := by
        intro he
        rw [Prod.mk.injEq] at he
        obtain ⟨e1, e2⟩ := he
        subst e1; subst e2
        exact h3 hne
      have : r ≠ row ∨ c ≠ col := by
        by_contra hcon
        push_neg at hcon
        exact hcell (by rw [hcon.1, hcon.2])
      show getCell (setCell s.board row col num) r c = getCell s.initialBoard r c
      rw [getCell_setCell_ne s.board row col num r c this]
      exact hinv r c hne

/-- C7: clue immutability.  Cells nonzero in the initial board keep exactly
their initial value across any sequence of `updateCell` edits, and an edit
that targets a clue cell leaves the whole state unchanged. -/
theorem clue_cells_immutable (s : GameState) (edits : List (Nat × Nat × CellInput))
    (hinv : ∀ r c, getCell s.initialBoard r c ≠ 0 →
      getCell s.board r c = getCell s.initialBoard r c) :
    ((applyEdits s edits).initialBoard = s.initialBoard) ∧
    (∀ r c, getCell s.initialBoard r c ≠ 0 →
      getCell (applyEdits s edits).board r c = getCell s.initialBoard r c) ∧
    (∀ row col value, getCell s.initialBoard row col ≠ 0 →
      updateCell s row col value = s) := by
  refine ⟨?_, ?_, fun row col value h => updateCell_clue_noop s row col value h⟩
  · induction edits generalizing s with
    | nil => rfl
    | cons e rest ih =>
      show (applyEdits (updateCell s e.1 e.2.1 e.2.2) rest).initialBoard = _
      rw [ih (updateCell s e.1 e.2.1 e.2.2)
        (updateCell_preserves_clues s e.1 e.2.1 e.2.2 hinv),
        updateCell_initialBoard]
  · induction edits generalizing s with
    | nil => exact hinv
    | cons e rest ih =>
      intro r c hne
      show getCell (applyEdits (updateCell s e.1 e.2.1 e.2.2) rest).board r c = _
      have hinit := updateCell_initialBoard s e.1 e.2.1 e.2.2
      have hinv2 := updateCell_preserves_clues s e.1 e.2.1 e.2.2 hinv
      have hne2 : getCell (updateCell s e.1 e.2.1 e.2.2).initialBoard r c ≠ 0 := by
        rw [hinit]; exact hne
      have hres := ih (updateCell s e.1 e.2.1 e.2.2) hinv2 r c hne2
      rw [hinit] at hres
      exact hres

/-- Witness for `clue_cells_immutable`: a fresh easy game (whose working
board initially equals the initial board) with one edit applied. -/
theorem clue_cells_immutable_witness :
    (∀ r c, getCell (startNewGame "easy" []).initialBoard r c ≠ 0 →
      getCell (startNewGame "easy" []).board r c =
        getCell (startNewGame "easy" []).initialBoard r c) ∧
    (((applyEdits (startNewGame "easy" []) [(0, 0, CellInput.empty)]).initialBoard =
        (startNewGame "easy" []).initialBoard) ∧
      (∀ r c, getCell (startNewGame "easy" []).initialBoard r c ≠ 0 →
        getCell (applyEdits (startNewGame "easy" []) [(0, 0, CellInput.empty)]).board r c =
          getCell (startNewGame "easy" []).initialBoard r c) ∧
      (∀ row col value, getCell (startNewGame "easy" []).initialBoard row col ≠ 0 →
        updateCell (startNewGame "easy" []) row col value = startNewGame "easy" [])) := by
  have hinv : ∀ r c, getCell (startNewGame "easy" []).initialBoard r c ≠ 0 →
      getCell (startNewGame "easy" []).board r c =
        getCell (startNewGame "easy" []).initialBoard r c := fun r c _ => rfl
  exact ⟨hinv, clue_cells_immutable (startNewGame "easy" []) [(0, 0, CellInput.empty)] hinv⟩

/-- C8: after an applied edit, the status flips to "completed" exactly when
the resulting working board has no empty cell and its recomputed violation
set (`computeErrors`) is empty; otherwise the status is (re)set to
"playing". -/
theorem updateCell_completion_iff (s : GameState) (row col : Nat)
    (v : CellInput) (num : Nat)
    (h1 : s.status = Status.playing) (h2 : s.board.length ≠ 0)
    (h3 : getCell s.initialBoard row col = 0)
    (h4 : parseInput v s.size = some num) :
    ((updateCell s row col v).board = setCell s.board row col num) ∧
    ((updateCell s row col v).errors =
      computeErrors (updateCell s row col v).board s.size) ∧
    ((updateCell s row col v).status = Status.completed ↔
      ((∀ row2 ∈ (updateCell s row col v).board, 0 ∉ row2) ∧
        (updateCell s row col v).errors = ∅)) ∧
    ((updateCell s row col v).status = Status.completed ∨
      (updateCell s row col v).status = Status.playing) := by
  have hs : ¬ s.status ≠ Status.playing := by rw [h1]; exact fun h => h rfl
  have hclue : ¬ getCell s.initialBoard row col ≠ 0 := by rw [h3]; exact fun h => h rfl
  have hred : updateCell s row col v =
      { s with
        board := setCell s.board row col num
        errors := computeErrors (setCell s.board row col num) s.size
        hintCell := none
        status :=
          if ¬((setCell s.board row col num).any fun r => r.contains 0) ∧
              ¬(computeErrors (setCell s.board row col num) s.size ≠ ∅) then
            Status.completed
          else Status.playing } := by
    unfold updateCell
    rw [if_neg hs, if_neg h2, if_neg hclue, h4]
  rw [hred]
  have hany_iff : ((setCell s.board row col num).any fun r => r.contains 0) = true ↔
      ∃ row2 ∈ setCell s.board row col num, 0 ∈ row2 := by
    simp
  refine ⟨rfl, rfl, ?_, ?_⟩
  · show (if ¬((setCell s.board row col num).any fun r => r.contains 0) ∧
        ¬(computeErrors (setCell s.board row col num) s.size ≠ ∅) then Status.completed
        else Status.playing) = Status.completed ↔ _
    by_cases hc : ¬((setCell s.board row col num).any fun r => r.contains 0) ∧
        ¬(computeErrors (setCell s.board row col num) s.size ≠ ∅)
    · rw [if_pos hc]
      simp only [true_iff]
      exact ⟨fun row2 hrow2 hmem => hc.1 (hany_iff.mpr ⟨row2, hrow2, hmem⟩),
        not_not.mp hc.2⟩
    · rw [if_neg hc]
      constructor
      · intro h
        exact absurd h (by intro h2; cases h2)
      · rintro ⟨ha, hb⟩
        exact absurd ⟨fun hany => by
            obtain ⟨row2, hrow2, hmem⟩ := hany_iff.mp hany
            exact ha row2 hrow2 hmem,
          fun hne => hne hb⟩ hc
  · show ((if ¬((setCell s.board row col num).any fun r => r.contains 0) ∧
        ¬(computeErrors (setCell s.board row col num) s.size ≠ ∅) then Status.completed
        else Status.playing) = Status.completed) ∨ _
    by_cases hc : ¬((setCell s.board row col num).any fun r => r.contains 0) ∧
        ¬(computeErrors (setCell s.board row col num) s.size ≠ ∅)
    · rw [if_pos hc]; exact Or.inl rfl
    · rw [if_neg hc]; exact Or.inr rfl

theorem mem_rowGroup (size r : Nat) (p : Nat × Nat) :
    p ∈ rowGroup size r ↔ p.1 = r ∧ p.2 < size := by
  unfold rowGroup
  simp only [List.mem_map, List.mem_range]
  constructor
  · rintro ⟨c, hc, rfl⟩
    exact ⟨rfl, hc⟩
  · rintro ⟨h1, h2⟩
    exact ⟨p.2, h2, by rw [← h1]⟩

theorem mem_colGroup (size c : Nat) (p : Nat × Nat) :
    p ∈ colGroup size c ↔ p.2 = c ∧ p.1 < size := by
  unfold colGroup
  simp only [List.mem_map, List.mem_range]
  constructor
  · rintro ⟨r, hr, rfl⟩
    exact ⟨rfl, hr⟩
  · rintro ⟨h1, h2⟩
    exact ⟨p.1, h2, by rw [← h1]⟩

theorem mem_blockGroup (bR bC br bc : Nat) (p : Nat × Nat) :
    p ∈ blockGroup bR bC br bc ↔
      br ≤ p.1 ∧ p.1 < br + bR ∧ bc ≤ p.2 ∧ p.2 < bc + bC := by
  unfold blockGroup
  simp only [List.mem_flatMap, List.mem_map, List.mem_range]
  constructor
  · rintro ⟨dr, hdr, dc, hdc, rfl⟩
    exact ⟨Nat.le_add_right _ _, by omega, Nat.le_add_right _ _, by omega⟩
  · rintro ⟨h1, h2, h3, h4⟩
    exact ⟨p.1 - br, by omega, p.2 - bc, by omega, by
      rw [Nat.add_sub_cancel' h1, Nat.add_sub_cancel' h3]⟩

theorem mem_blockStarts (size step b : Nat) :
    b ∈ blockStarts size step ↔ b < size ∧ b % step = 0 := by
  unfold blockStarts
  simp [List.mem_filter, List.mem_range]

theorem mem_groups (size : Nat) (grp : List (Nat × Nat)) :
    grp ∈ groups size ↔
      ((∃ r, r < size ∧ grp = rowGroup size r) ∨
       (∃ c, c < size ∧ grp = colGroup size c) ∨
       (∃ br bc, br < size ∧ br % (getBlockDimensions size).1 = 0 ∧
         bc < size ∧ bc % (getBlockDimensions size).2 = 0 ∧
         grp = blockGroup (getBlockDimensions size).1 (getBlockDimensions size).2 br bc)) := by
  unfold groups
  simp only [List.mem_append, List.mem_map, List.mem_flatMap, List.mem_range,
    mem_blockStarts]
  constructor
  · rintro ((⟨r, hr, rfl⟩ | ⟨c, hc, rfl⟩) | ⟨br, ⟨hbr1, hbr2⟩, ⟨bc, ⟨hbc1, hbc2⟩, rfl⟩⟩)
    · exact Or.inl ⟨r, hr, rfl⟩
    · exact Or.inr (Or.inl ⟨c, hc, rfl⟩)
    · exact Or.inr (Or.inr ⟨br, bc, hbr1, hbr2, hbc1, hbc2, rfl⟩)
  · rintro (⟨r, hr, rfl⟩ | ⟨c, hc, rfl⟩ | ⟨br, bc, hbr1, hbr2, hbc1, hbc2, rfl⟩)
    · exact Or.inl (Or.inl ⟨r, hr, rfl⟩)
    · exact Or.inl (Or.inr ⟨c, hc, rfl⟩)
    · exact Or.inr ⟨br, ⟨hbr1, hbr2⟩, ⟨bc, ⟨hbc1, hbc2⟩, rfl⟩⟩

theorem rowGroup_nodup (size r : Nat) : (rowGroup size r).Nodup :=
  List.Nodup.map (fun a b hab => by simpa using hab) (List.nodup_range size)

theorem colGroup_nodup (size c : Nat) : (colGroup size c).Nodup :=
  List.Nodup.map (fun a b hab => by simpa using hab) (List.nodup_range size)

theorem blockGroup_nodup (bR bC br bc : Nat) : (blockGroup bR bC br bc).Nodup := by
  unfold blockGroup
  rw [List.nodup_flatMap]
  constructor
  · intro dr _
    exact List.Nodup.map (fun a b hab => by simpa using hab) (List.nodup_range bC)
  · rw [List.pairwise_iff_forall_sublist]
    rintro dr1 dr2 hsub
    have hne : dr1 ≠ dr2 := by
      intro he
      subst he
      exact absurd (hsub.nodup (List.nodup_range bR)) (by simp)
    intro p hp1 hp2
    simp only [Function.onFun, List.mem_map, List.mem_range] at hp1 hp2
    obtain ⟨dc1, _, rfl⟩ := hp1
    obtain ⟨dc2, _, he⟩ := hp2
    rw [Prod.mk.injEq] at he
    exact hne (by omega)

theorem groups_nodup (size : Nat) (grp : List (Nat × Nat))
    (h : grp ∈ groups size) : grp.Nodup := by
  rw [mem_groups] at h
  rcases h with ⟨r, _, rfl⟩ | ⟨c, _, rfl⟩ | ⟨br, bc, _, _, _, _, rfl⟩
  · exact rowGroup_nodup size r
  · exact colGroup_nodup size c
  · exact blockGroup_nodup _ _ br bc

/-- On a duplicate-free list, the count of matches is at least two exactly
when a second, distinct matching element exists. -/
theorem countP_two_iff {α : Type} (l : List α) (f : α → Bool) (p : α)
    (hn : l.Nodup) (hp : p ∈ l) (hf : f p = true) :
    2 ≤ l.countP f ↔ ∃ q ∈ l, q ≠ p ∧ f q = true := by
  constructor
  · intro h2
    by_contra hno
    push_neg at hno
    have hsub : ∀ q ∈ l.filter f, q = p := by
      intro q hq
      rw [List.mem_filter] at hq
      by_contra hne
      exact absurd hq.2 (by simp [hno q hq.1 hne])
    have hlen : (l.filter f).length ≤ 1 := by
      rcases hfl : l.filter f with _ | ⟨a, rest⟩
      · simp
      · rcases rest with _ | ⟨b, rest2⟩
        · simp
        · have hnd := List.Nodup.filter f hn
          rw [hfl] at hnd
          have ha : a = p := hsub a (by rw [hfl]; exact List.mem_cons_self a _)
          have hb : b = p := by
            refine hsub b ?_
            rw [hfl]
            exact List.mem_cons_of_mem a (List.mem_cons_self b _)
          rw [ha, hb] at hnd
          exact absurd (List.nodup_cons.mp hnd).1
            (fun hcon => hcon (List.mem_cons_self p rest2))
    rw [List.countP_eq_length_filter] at h2
    omega
  · rintro ⟨q, hql, hqne, hqf⟩
    obtain ⟨s, t, rfl⟩ := List.append_of_mem hp
    rw [List.countP_append, List.countP_cons]
    rcases List.mem_append.mp hql with hq | hq
    · have : 1 ≤ s.countP f := by
        rw [List.countP_eq_length_filter]
        have : q ∈ s.filter f := List.mem_filter.mpr ⟨hq, hqf⟩
        exact List.length_pos.mpr (fun he => by rw [he] at this; cases this)
      simp [hf]
      omega
    · rw [List.mem_cons] at hq
      rcases hq with he | hq
      · exact absurd he hqne
      · have : 1 ≤ t.countP f := by
          rw [List.countP_eq_length_filter]
          have : q ∈ t.filter f := List.mem_filter.mpr ⟨hq, hqf⟩
          exact List.length_pos.mpr (fun he => by rw [he] at this; cases this)
        simp [hf]
        omega

theorem mem_dupCells (g : Grid) (cells : List (Nat × Nat)) (p : Nat × Nat) :
    p ∈ dupCells g cells ↔
      p ∈ cells ∧ getCell g p.1 p.2 ≠ 0 ∧
        2 ≤ cells.countP fun q => getCell g q.1 q.2 == getCell g p.1 p.2 := by
  unfold dupCells
  rw [List.mem_filter]
  simp only [Bool.and_eq_true, Bool.not_eq_true', beq_eq_false_iff_ne, ne_eq,
    decide_eq_true_eq]

/-- Membership in the violation set, in terms of the constraint groups: a
cell is marked exactly when some group contains it together with a distinct
cell holding the same (nonzero) value. -/
theorem mem_computeErrors (g : Grid) (size : Nat) (p : Nat × Nat) :
    p ∈ computeErrors g size ↔
      ∃ grp ∈ groups size, p ∈ grp ∧ getCell g p.1 p.2 ≠ 0 ∧
        ∃ q ∈ grp, q ≠ p ∧ getCell g q.1 q.2 = getCell g p.1 p.2 := by
  unfold computeErrors
  rw [List.mem_toFinset, List.mem_flatMap]
  constructor
  · rintro ⟨grp, hgrp, hp⟩
    rw [mem_dupCells] at hp
    obtain ⟨hpg, hne, hcount⟩ := hp
    refine ⟨grp, hgrp, hpg, hne, ?_⟩
    have := (countP_two_iff grp (fun q => getCell g q.1 q.2 == getCell g p.1 p.2) p
      (groups_nodup size grp hgrp) hpg (by simp)).mp hcount
    obtain ⟨q, hq, hqne, hqf⟩ := this
    exact ⟨q, hq, hqne, by simpa using hqf⟩
  · rintro ⟨grp, hgrp, hpg, hne, q, hq, hqne, hqv⟩
    refine ⟨grp, hgrp, ?_⟩
    rw [mem_dupCells]
    refine ⟨hpg, hne, ?_⟩
    exact (countP_two_iff grp (fun q2 => getCell g q2.1 q2.2 == getCell g p.1 p.2) p
      (groups_nodup size grp hgrp) hpg (by simp)).mpr ⟨q, hq, hqne, by simpa using hqv⟩

theorem block_origin_eq (bR br x : Nat) (hm : br % bR = 0) (h1 : br ≤ x)
    (h2 : x < br + bR) : x - x % bR = br := by
  have h3 : x % bR = x - br := by
    have hx : x = br + (x - br) := by omega
    conv_lhs => rw [hx]
    rw [Nat.add_mod, hm]
    simp
    exact Nat.mod_eq_of_lt (by omega)
  omega

theorem sub_mod_mod (x m : Nat) : (x - x % m) % m = 0 := by
  have h := Nat.div_add_mod x m
  set t := m * (x / m) with ht
  have h2 : x - x % m = t := by omega
  rw [h2, ht]
  exact Nat.mul_mod_right _ _

theorem block_start_add_le (bR br size : Nat) (hm : br % bR = 0)
    (hlt : br < size) (hdvd : bR ∣ size) : br + bR ≤ size := by
  obtain ⟨k, rfl⟩ := hdvd
  obtain ⟨j, rfl⟩ := Nat.dvd_of_mod_eq_zero hm
  have hjk : j + 1 ≤ k := Nat.lt_of_mul_lt_mul_left hlt
  calc bR * j + bR = bR * (j + 1) := by ring
    _ ≤ bR * k := Nat.mul_le_mul_left bR hjk

theorem computeErrors_spec_aux (g : Grid) (size bR bC : Nat) (p : Nat × Nat)
    (hbd : getBlockDimensions size = (bR, bC)) (h0R : 0 < bR) (h0C : 0 < bC)
    (hdvdR : bR ∣ size) (hdvdC : bC ∣ size) :
    p ∈ computeErrors g size ↔
      (getCell g p.1 p.2 ≠ 0 ∧ p.1 < size ∧ p.2 < size ∧
        ((∃ c2, c2 < size ∧ c2 ≠ p.2 ∧ getCell g p.1 c2 = getCell g p.1 p.2) ∨
         (∃ r2, r2 < size ∧ r2 ≠ p.1 ∧ getCell g r2 p.2 = getCell g p.1 p.2) ∨
         (∃ r2 c2,
           p.1 - p.1 % bR ≤ r2 ∧ r2 < p.1 - p.1 % bR + bR ∧
           p.2 - p.2 % bC ≤ c2 ∧ c2 < p.2 - p.2 % bC + bC ∧
           (r2, c2) ≠ p ∧ getCell g r2 c2 = getCell g p.1 p.2))) := by
  have hbR : (getBlockDimensions size).1 = bR := by rw [hbd]
  have hbC : (getBlockDimensions size).2 = bC := by rw [hbd]
  rw [mem_computeErrors]
  constructor
  · rintro ⟨grp, hgrp, hpg, hne, q, hq, hqne, hqv⟩
    rw [mem_groups, hbR, hbC] at hgrp
    rcases hgrp with ⟨r, hr, rfl⟩ | ⟨c, hc, rfl⟩ | ⟨br, bc, hbr1, hbr2, hbc1, hbc2, rfl⟩
    · rw [mem_rowGroup] at hpg hq
      refine ⟨hne, by omega, hpg.2, Or.inl ⟨q.2, hq.2, ?_, ?_⟩⟩
      · intro he
        exact hqne (Prod.ext (by omega) he)
      · exact (by rw [hpg.1, hq.1] :
          getCell g p.1 q.2 = getCell g q.1 q.2).trans hqv
    · rw [mem_colGroup] at hpg hq
      refine ⟨hne, hpg.2, by omega, Or.inr (Or.inl ⟨q.1, hq.2, ?_, ?_⟩)⟩
      · intro he
        exact hqne (Prod.ext he (by omega))
      · exact (by rw [hpg.1, hq.1] :
          getCell g q.1 p.2 = getCell g q.1 q.2).trans hqv
    · rw [mem_blockGroup] at hpg hq
      obtain ⟨ha1, ha2, ha3, ha4⟩ := hpg
      obtain ⟨hb1, hb2, hb3, hb4⟩ := hq
      have horigR : p.1 - p.1 % bR = br := block_origin_eq bR br p.1 hbr2 ha1 ha2
      have horigC : p.2 - p.2 % bC = bc := block_origin_eq bC bc p.2 hbc2 ha3 ha4
      have hp1lt : p.1 < size :=
        Nat.lt_of_lt_of_le ha2 (block_start_add_le bR br size hbr2 hbr1 hdvdR)
      have hp2lt : p.2 < size :=
        Nat.lt_of_lt_of_le ha4 (block_start_add_le bC bc size hbc2 hbc1 hdvdC)
      refine ⟨hne, hp1lt, hp2lt, Or.inr (Or.inr ⟨q.1, q.2, ?_, ?_, ?_, ?_, ?_, hqv⟩)⟩
      · rw [horigR]; exact hb1
      · rw [horigR]; exact hb2
      · rw [horigC]; exact hb3
      · rw [horigC]; exact hb4
      · exact hqne
  · rintro ⟨hne, hp1, hp2, hdup⟩
    rcases hdup with ⟨c2, hc2, hc2ne, hval⟩ | ⟨r2, hr2, hr2ne, hval⟩ |
      ⟨r2, c2, hr1, hr2b, hc1, hc2b, hqne, hval⟩
    · refine ⟨rowGroup size p.1, (mem_groups size _).mpr (Or.inl ⟨p.1, hp1, rfl⟩),
        (mem_rowGroup size p.1 p).mpr ⟨rfl, hp2⟩, hne,
        (p.1, c2), (mem_rowGroup size p.1 _).mpr ⟨rfl, hc2⟩, ?_, hval⟩
      intro he
      exact hc2ne (congrArg Prod.snd he)
    · refine ⟨colGroup size p.2, (mem_groups size _).mpr (Or.inr (Or.inl ⟨p.2, hp2, rfl⟩)),
        (mem_colGroup size p.2 p).mpr ⟨rfl, hp1⟩, hne,
        (r2, p.2), (mem_colGroup size p.2 _).mpr ⟨rfl, hr2⟩, ?_, hval⟩
      intro he
      exact hr2ne (congrArg Prod.fst he)
    · have hmodR : p.1 % bR ≤ p.1 := Nat.mod_le p.1 bR
      have hmodR2 : p.1 % bR < bR := Nat.mod_lt p.1 h0R
      have hmodC : p.2 % bC ≤ p.2 := Nat.mod_le p.2 bC
      have hmodC2 : p.2 % bC < bC := Nat.mod_lt p.2 h0C
      refine ⟨blockGroup bR bC (p.1 - p.1 % bR) (p.2 - p.2 % bC),
        (mem_groups size _).mpr (Or.inr (Or.inr
          ⟨p.1 - p.1 % bR, p.2 - p.2 % bC, by omega, ?_, by omega, ?_, by rw [hbR, hbC]⟩)),
        (mem_blockGroup bR bC _ _ p).mpr ⟨by omega, by omega, by omega, by omega⟩, hne,
        (r2, c2), (mem_blockGroup bR bC _ _ _).mpr ⟨hr1, hr2b, hc1, hc2b⟩, hqne, hval⟩
      · rw [hbR]; exact sub_mod_mod p.1 bR
      · rw [hbC]; exact sub_mod_mod p.2 bC

/-- C5: `computeErrors(grid, size)` marks exactly the nonzero cells that
share their value with some other cell of the same row, column or box; zero
cells are never marked and the result is a set (each cell appears once). -/
theorem computeErrors_spec (g : Grid) (size : Nat) (p : Nat × Nat)
    (hsize : size = 6 ∨ size = 9) :
    p ∈ computeErrors g size ↔
      (getCell g p.1 p.2 ≠ 0 ∧ p.1 < size ∧ p.2 < size ∧
        ((∃ c2, c2 < size ∧ c2 ≠ p.2 ∧ getCell g p.1 c2 = getCell g p.1 p.2) ∨
         (∃ r2, r2 < size ∧ r2 ≠ p.1 ∧ getCell g r2 p.2 = getCell g p.1 p.2) ∨
         (∃ r2 c2,
           p.1 - p.1 % (getBlockDimensions size).1 ≤ r2 ∧
           r2 < p.1 - p.1 % (getBlockDimensions size).1 + (getBlockDimensions size).1 ∧
           p.2 - p.2 % (getBlockDimensions size).2 ≤ c2 ∧
           c2 < p.2 - p.2 % (getBlockDimensions size).2 + (getBlockDimensions size).2 ∧
           (r2, c2) ≠ p ∧ getCell g r2 c2 = getCell g p.1 p.2))) := by
  rcases hsize with rfl | rfl
  · exact computeErrors_spec_aux g 6 2 3 p rfl (by omega) (by omega)
      (by decide) (by decide)
  · exact computeErrors_spec_aux g 9 3 3 p rfl (by omega) (by omega)
      (by decide) (by decide)

/-- Witness for `computeErrors_spec` on the spec's concrete scenario board
(a `1` placed at `(0,0)` with another `1` at `(0,3)`): the characterization
instantiated at `(0,0)`, and both `(0,0)` and `(0,3)` are marked. -/
theorem computeErrors_spec_witness :
    ((6 : Nat) = 6 ∨ (6 : Nat) = 9) ∧
    ((0, 0) ∈ computeErrors scenarioBoard 6 ↔
      (getCell scenarioBoard 0 0 ≠ 0 ∧ 0 < 6 ∧ 0 < 6 ∧
        ((∃ c2, c2 < 6 ∧ c2 ≠ 0 ∧ getCell scenarioBoard 0 c2 = getCell scenarioBoard 0 0) ∨
         (∃ r2, r2 < 6 ∧ r2 ≠ 0 ∧ getCell scenarioBoard r2 0 = getCell scenarioBoard 0 0) ∨
         (∃ r2 c2,
           0 - 0 % (getBlockDimensions 6).1 ≤ r2 ∧
           r2 < 0 - 0 % (getBlockDimensions 6).1 + (getBlockDimensions 6).1 ∧
           0 - 0 % (getBlockDimensions 6).2 ≤ c2 ∧
           c2 < 0 - 0 % (getBlockDimensions 6).2 + (getBlockDimensions 6).2 ∧
           (r2, c2) ≠ ((0 : Nat), (0 : Nat)) ∧
           getCell scenarioBoard r2 c2 = getCell scenarioBoard 0 0)))) ∧
    (0, 0) ∈ computeErrors scenarioBoard 6 ∧
    (0, 3) ∈ computeErrors scenarioBoard 6 := by
  refine ⟨Or.inl rfl, ?_, ?_, ?_⟩
  · exact computeErrors_spec scenarioBoard 6 (0, 0) (Or.inl rfl)
  · exact (computeErrors_spec scenarioBoard 6 (0, 0) (Or.inl rfl)).mpr
      ⟨by decide, by decide, by decide, Or.inl ⟨3, by decide, by decide, by decide⟩⟩
  · exact (computeErrors_spec scenarioBoard 6 (0, 3) (Or.inl rfl)).mpr
      ⟨by decide, by decide, by decide, Or.inl ⟨0, by decide, by decide, by decide⟩⟩

/-- Witness for `updateCell_completion_iff`: filling the single hole of the
one-hole 6x6 puzzle with the value 1. -/
theorem updateCell_completion_iff_witness :
    (sampleState.status = Status.playing ∧ List.length sampleState.board ≠ 0 ∧
      getCell sampleState.initialBoard 0 0 = 0 ∧
      parseInput (CellInput.value 1) sampleState.size = some 1) ∧
    ((updateCell sampleState 0 0 (CellInput.value 1)).status = Status.completed ↔
      ((∀ row2 ∈ (updateCell sampleState 0 0 (CellInput.value 1)).board, 0 ∉ row2) ∧
        (updateCell sampleState 0 0 (CellInput.value 1)).errors = ∅)) :=
  ⟨⟨rfl, by decide, by decide, by decide⟩,
    (updateCell_completion_iff sampleState 0 0 (CellInput.value 1) 1 rfl
      (by decide) (by decide) (by decide)).2.2.1⟩

theorem collectCands_length (board : Grid) (size r c : Nat) :
    ∀ (L : List Nat) (acc : List Nat), acc.length ≤ 1 →
      (collectCands board size r c L acc).length =
        min (acc.length + L.countP fun v =>
          decide ((r, c) ∉ computeErrors (setCell board r c v) size)) 2 := by
  intro L
  induction L with
  | nil =>
    intro acc hacc
    simp only [collectCands, List.countP_nil]
    omega
  | cons v rest ih =>
    intro acc hacc
    rw [List.countP_cons]
    by_cases hmem : (r, c) ∈ computeErrors (setCell board r c v) size
    · have hstep : collectCands board size r c (v :: rest) acc =
          collectCands board size r c rest acc := by
        simp only [collectCands, if_pos hmem]
        rw [if_neg (show ¬ 1 < acc.length by omega)]
      rw [hstep, ih acc hacc]
      simp [hmem]
    · have hpred : (decide ((r, c) ∉ computeErrors (setCell board r c v) size)) = true := by
        simp [hmem]
      rcases Nat.lt_or_ge acc.length 1 with hlen | hlen
      · have hstep : collectCands board size r c (v :: rest) acc =
            collectCands board size r c rest (acc ++ [v]) := by
          simp only [collectCands, if_neg hmem]
          rw [if_neg (show ¬ 1 < (acc ++ [v]).length by
            simp only [List.length_append, List.length_cons, List.length_nil]; omega)]
        rw [hstep, ih (acc ++ [v]) (by
          simp only [List.length_append, List.length_cons, List.length_nil]; omega)]
        simp [hpred]
        omega
      · have h1 : acc.length = 1 := by omega
        have hstep : collectCands board size r c (v :: rest) acc = acc ++ [v] := by
          simp only [collectCands, if_neg hmem]
          rw [if_pos (show 1 < (acc ++ [v]).length by
            simp only [List.length_append, List.length_cons, List.length_nil]; omega)]
        rw [hstep]
        simp [hpred]
        omega

theorem mem_rangeFromOne (size v : Nat) :
    v ∈ rangeFromOne size ↔ 1 ≤ v ∧ v ≤ size := by
  unfold rangeFromOne
  simp only [List.mem_map, List.mem_range]
  constructor
  · rintro ⟨k, hk, rfl⟩
    omega
  · rintro ⟨h1, h2⟩
    exact ⟨v - 1, by omega, by omega⟩

theorem rangeFromOne_nodup (size : Nat) : (rangeFromOne size).Nodup :=
  List.Nodup.map (fun a b hab => by omega) (List.nodup_range size)

/-- On a duplicate-free list the match count is one exactly when there is a
unique matching element. -/
theorem countP_eq_one_iff {α : Type} (l : List α) (f : α → Bool) (hn : l.Nodup) :
    l.countP f = 1 ↔ ∃! a, a ∈ l ∧ f a = true := by
  rw [List.countP_eq_length_filter]
  constructor
  · intro h1
    obtain ⟨a, ha⟩ := List.length_eq_one.mp h1
    have hmem : a ∈ l.filter f := by rw [ha]; exact List.mem_cons_self a []
    rw [List.mem_filter] at hmem
    refine ⟨a, hmem, ?_⟩
    intro b hb
    have : b ∈ l.filter f := List.mem_filter.mpr ⟨hb.1, hb.2⟩
    rw [ha] at this
    simpa using this
  · rintro ⟨a, ⟨hal, hfa⟩, huniq⟩
    have hsub : ∀ b ∈ l.filter f, b = a := by
      intro b hb
      rw [List.mem_filter] at hb
      exact huniq b hb
    have hmem : a ∈ l.filter f := List.mem_filter.mpr ⟨hal, hfa⟩
    rcases hfl : l.filter f with _ | ⟨x, rest⟩
    · rw [hfl] at hmem; cases hmem
    · rcases rest with _ | ⟨y, rest2⟩
      · simp
      · have hnd := List.Nodup.filter f hn
        rw [hfl] at hnd
        have hx : x = a := hsub x (by rw [hfl]; exact List.mem_cons_self x _)
        have hy : y = a := by
          refine hsub y ?_
          rw [hfl]
          exact List.mem_cons_of_mem x (List.mem_cons_self y _)
        rw [hx, hy] at hnd
        exact absurd (List.nodup_cons.mp hnd).1
          (fun hcon => hcon (List.mem_cons_self a rest2))

/-- The early-breaking candidate collection reports exactly one candidate
precisely when exactly one value in `[1, size]` is non-conflicting. -/
theorem candidatesAt_length_one_iff (board : Grid) (size r c : Nat) :
    (candidatesAt board size r c).length = 1 ↔
      ∃! v, 1 ≤ v ∧ v ≤ size ∧
        (r, c) ∉ computeErrors (setCell board r c v) size := by
  unfold candidatesAt
  rw [collectCands_length board size r c (rangeFromOne size) [] (by simp)]
  simp only [List.length_nil, Nat.zero_add]
  constructor
  · intro h
    have hcount : (rangeFromOne size).countP
        (fun v => decide ((r, c) ∉ computeErrors (setCell board r c v) size)) = 1 := by
      omega
    obtain ⟨v, ⟨hvmem, hvok⟩, huniq⟩ :=
      (countP_eq_one_iff _ _ (rangeFromOne_nodup size)).mp hcount
    rw [mem_rangeFromOne] at hvmem
    refine ⟨v, ⟨hvmem.1, hvmem.2, by simpa using hvok⟩, ?_⟩
    intro w ⟨hw1, hw2, hw3⟩
    exact huniq w ⟨(mem_rangeFromOne size w).mpr ⟨hw1, hw2⟩, by simpa using hw3⟩
  · rintro ⟨v, ⟨hv1, hv2, hv3⟩, huniq⟩
    have hcount : (rangeFromOne size).countP
        (fun v => decide ((r, c) ∉ computeErrors (setCell board r c v) size)) = 1 := by
      refine (countP_eq_one_iff _ _ (rangeFromOne_nodup size)).mpr
        ⟨v, ⟨(mem_rangeFromOne size v).mpr ⟨hv1, hv2⟩, by simpa using hv3⟩, ?_⟩
      intro w ⟨hwmem, hwok⟩
      rw [mem_rangeFromOne] at hwmem
      exact huniq w ⟨hwmem.1, hwmem.2, by simpa using hwok⟩
    omega

theorem scanHint_some_spec (board : Grid) (size : Nat) :
    ∀ (k i r c : Nat), scanHint board size k i = some (r, c) →
      ∃ j, i ≤ j ∧ j < i + k ∧ r = j / size ∧ c = j % size ∧
        getCell board (j / size) (j % size) = 0 ∧
        (candidatesAt board size (j / size) (j % size)).length = 1 ∧
        ∀ j2, i ≤ j2 → j2 < j →
          ¬(getCell board (j2 / size) (j2 % size) = 0 ∧
            (candidatesAt board size (j2 / size) (j2 % size)).length = 1) := by
  intro k
  induction k with
  | zero => intro i r c h; cases h
  | succ k ih =>
    intro i r c h
    unfold scanHint at h
    by_cases hz : getCell board (i / size) (i % size) ≠ 0
    · rw [if_pos hz] at h
      obtain ⟨j, h1, h2, h3, h4, h5, h6, h7⟩ := ih (i + 1) r c h
      refine ⟨j, by omega, by omega, h3, h4, h5, h6, ?_⟩
      intro j2 hj1 hj2
      rcases Nat.eq_or_lt_of_le hj1 with rfl | hlt
      · rintro ⟨hz2, -⟩
        exact hz hz2
      · exact h7 j2 hlt hj2
    · rw [if_neg hz] at h
      by_cases hone : (candidatesAt board size (i / size) (i % size)).length = 1
      · rw [if_pos hone] at h
        rw [Option.some_inj] at h
        obtain ⟨rfl, rfl⟩ := Prod.mk.injEq .. ▸ And.intro (congrArg Prod.fst h.symm)
          (congrArg Prod.snd h.symm)
        exact ⟨i, Nat.le_refl i, by omega, rfl, rfl, not_not.mp hz, hone,
          fun j2 hj1 hj2 => absurd hj1 (by omega)⟩
      · rw [if_neg hone] at h
        obtain ⟨j, h1, h2, h3, h4, h5, h6, h7⟩ := ih (i + 1) r c h
        refine ⟨j, by omega, by omega, h3, h4, h5, h6, ?_⟩
        intro j2 hj1 hj2
        rcases Nat.eq_or_lt_of_le hj1 with rfl | hlt
        · rintro ⟨-, hone2⟩
          exact hone hone2
        · exact h7 j2 hlt hj2

theorem scanHint_none_spec (board : Grid) (size : Nat) :
    ∀ (k i : Nat), scanHint board size k i = none ↔
      ∀ j, i ≤ j → j < i + k →
        ¬(getCell board (j / size) (j % size) = 0 ∧
          (candidatesAt board size (j / size) (j % size)).length = 1) := by
  intro k
  induction k with
  | zero =>
    intro i
    constructor
    · intro _ j h1 h2
      omega
    · intro _
      rfl
  | succ k ih =>
    intro i
    unfold scanHint
    by_cases hz : getCell board (i / size) (i % size) ≠ 0
    · rw [if_pos hz, ih (i + 1)]
      constructor
      · intro h j h1 h2
        rcases Nat.eq_or_lt_of_le h1 with rfl | hlt
        · rintro ⟨hz2, -⟩
          exact hz hz2
        · exact h j hlt (by omega)
      · intro h j h1 h2
        exact h j (by omega) (by omega)
    · rw [if_neg hz]
      by_cases hone : (candidatesAt board size (i / size) (i % size)).length = 1
      · rw [if_pos hone]
        constructor
        · intro h; cases h
        · intro h
          exact absurd ⟨not_not.mp hz, hone⟩ (h i (Nat.le_refl i) (by omega))
      · rw [if_neg hone, ih (i + 1)]
        constructor
        · intro h j h1 h2
          rcases Nat.eq_or_lt_of_le h1 with rfl | hlt
          · rintro ⟨-, hone2⟩
            exact hone hone2
          · exact h j hlt (by omega)
        · intro h j h1 h2
          exact h j (by omega) (by omega)

theorem rm_index_lt (size r c r2 c2 : Nat) (hc2 : c2 < size)
    (h : r2 < r ∨ (r2 = r ∧ c2 < c)) : r2 * size + c2 < r * size + c := by
  rcases h with h | ⟨rfl, h⟩
  · calc r2 * size + c2 < r2 * size + size := by omega
      _ = (r2 + 1) * size := by ring
      _ ≤ r * size := Nat.mul_le_mul_right size h
      _ ≤ r * size + c := Nat.le_add_right _ _
  · omega

theorem index_div_mod (size r c : Nat) (hc : c < size) :
    (r * size + c) / size = r ∧ (r * size + c) % size = c := by
  have h0 : 0 < size := by omega
  constructor
  · rw [Nat.add_comm, Nat.add_mul_div_right c r h0, Nat.div_eq_of_lt hc]
    omega
  · rw [Nat.add_comm, Nat.add_mul_mod_self_right]
    exact Nat.mod_eq_of_lt hc

theorem qualifiesHint_iff (board : Grid) (size r c : Nat) :
    QualifiesHint board size r c ↔
      (getCell board r c = 0 ∧ (candidatesAt board size r c).length = 1) := by
  unfold QualifiesHint
  exact and_congr_right fun _ => (candidatesAt_length_one_iff board size r c).symm

/-- C6: on a playing board, `giveHint` targets the first empty cell in
row-major order having exactly one non-conflicting candidate value (the
candidate count stops at 2, which cannot change whether the count is exactly
one), and scanning stops at that cell; when no cell qualifies the state is
returned unchanged — a normal outcome, not an error. -/
theorem giveHint_spec (s : GameState)
    (h1 : s.status = Status.playing) (h2 : s.board.length ≠ 0)
    (h3 : s.size ≠ 0) :
    (∀ r c, findHint s.board s.size = some (r, c) →
      ((giveHint s).hintCell = some (r, c) ∧ r < s.size ∧ c < s.size ∧
        QualifiesHint s.board s.size r c ∧
        ∀ r2 c2, r2 < s.size → c2 < s.size → (r2 < r ∨ (r2 = r ∧ c2 < c)) →
          ¬ QualifiesHint s.board s.size r2 c2)) ∧
    (findHint s.board s.size = none →
      (giveHint s = s ∧
        ∀ r c, r < s.size → c < s.size → ¬ QualifiesHint s.board s.size r c)) := by
  have hs : ¬ s.status ≠ Status.playing := by rw [h1]; exact fun h => h rfl
  constructor
  · intro r c hfind
    have hgive : (giveHint s).hintCell = some (r, c) := by
      unfold giveHint
      rw [if_neg hs, if_neg h2, if_neg h3, hfind]
    obtain ⟨j, hj0, hjlt, hr, hc, hz, hone, hmin⟩ :=
      scanHint_some_spec s.board s.size (s.size * s.size) 0 r c hfind
    rw [Nat.zero_add] at hjlt
    have hrlt : r < s.size := by
      rw [hr]
      exact (Nat.div_lt_iff_lt_mul (by omega)).mpr hjlt
    have hclt : c < s.size := by
      rw [hc]
      exact Nat.mod_lt j (by omega)
    have hjeq : j = r * s.size + c := by
      have hdm := Nat.div_add_mod j s.size
      rw [Nat.mul_comm s.size (j / s.size)] at hdm
      rw [hr, hc]
      exact hdm.symm
    refine ⟨hgive, hrlt, hclt, ?_, ?_⟩
    · rw [qualifiesHint_iff, hr, hc]
      exact ⟨hz, hone⟩
    · intro r2 c2 hr2 hc2 hlt
      have hj2 : r2 * s.size + c2 < j := by
        rw [hjeq]
        exact rm_index_lt s.size r c r2 c2 hc2 hlt
      have hdm := index_div_mod s.size r2 c2 hc2
      have := hmin (r2 * s.size + c2) (Nat.zero_le _) hj2
      rw [hdm.1, hdm.2] at this
      rw [qualifiesHint_iff]
      exact this
  · intro hfind
    constructor
    · unfold giveHint
      rw [if_neg hs, if_neg h2, if_neg h3, hfind]
    · intro r c hr hc
      have hidx : r * s.size + c < s.size * s.size := by
        calc r * s.size + c < r * s.size + s.size := by omega
          _ = (r + 1) * s.size := by ring
          _ ≤ s.size * s.size := Nat.mul_le_mul_right s.size (by omega)
      have := (scanHint_none_spec s.board s.size (s.size * s.size) 0).mp hfind
        (r * s.size + c) (Nat.zero_le _) (by omega)
      have hdm := index_div_mod s.size r c hc
      rw [hdm.1, hdm.2] at this
      rw [qualifiesHint_iff]
      exact this

/-- Witness for `giveHint_spec` on the one-hole 6x6 state. -/
theorem giveHint_spec_witness :
    (sampleState.status = Status.playing ∧ List.length sampleState.board ≠ 0 ∧
      sampleState.size ≠ 0) ∧
    ((∀ r c, findHint sampleState.board sampleState.size = some (r, c) →
      ((giveHint sampleState).hintCell = some (r, c) ∧ r < sampleState.size ∧
        c < sampleState.size ∧ QualifiesHint sampleState.board sampleState.size r c ∧
        ∀ r2 c2, r2 < sampleState.size → c2 < sampleState.size →
          (r2 < r ∨ (r2 = r ∧ c2 < c)) →
          ¬ QualifiesHint sampleState.board sampleState.size r2 c2)) ∧
    (findHint sampleState.board sampleState.size = none →
      (giveHint sampleState = sampleState ∧
        ∀ r c, r < sampleState.size → c < sampleState.size →
          ¬ QualifiesHint sampleState.board sampleState.size r c))) :=
  ⟨⟨rfl, by decide, by decide⟩,
    giveHint_spec sampleState rfl (by decide) (by decide)⟩

theorem setCell_oob (g : Grid) (r c v : Nat)
    (h : ¬ ∃ hr : r < g.length, c < (g[r]).length) : setCell g r c v = g := by
  by_cases hr : r < g.length
  · have hc : ¬ c < (g[r]).length := fun hc => h ⟨hr, hc⟩
    unfold setCell
    rw [getRow_eq_getElem g r hr, List.set_eq_of_length_le (Nat.le_of_not_lt hc)]
    exact list_set_getElem_self g r hr
  · unfold setCell
    exact List.set_eq_of_length_le (Nat.le_of_not_lt hr)

theorem entriesLe_setCell (g : Grid) (size r c v : Nat)
    (hg : entriesLe g size) (hv : v ≤ size) : entriesLe (setCell g r c v) size := by
  intro r2 c2
  by_cases hne : r2 ≠ r ∨ c2 ≠ c
  · rw [getCell_setCell_ne g r c v r2 c2 hne]
    exact hg r2 c2
  · push_neg at hne
    obtain ⟨rfl, rfl⟩ := hne
    by_cases hin : ∃ hr : r2 < g.length, c2 < (g[r2]).length
    · obtain ⟨hr, hc⟩ := hin
      rw [getCell_setCell_self g r2 c2 v hr hc]
      exact hv
    · rw [setCell_oob g r2 c2 v hin]
      exact hg r2 c2

theorem entriesLe_of_wf (g : Grid) (size : Nat) (hwf : wellFormed g size)
    (h : ∀ r, r < size → ∀ c, c < size → getCell g r c ≤ size) : entriesLe g size := by
  intro r c
  by_cases hr : r < size
  · by_cases hc : c < size
    · exact h r hr c hc
    · have hrl : r < g.length := by rw [hwf.1]; exact hr
      rw [getCell_col_oob g r c hrl]
      · omega
      · rw [hwf.2 (g[r]) (List.getElem_mem hrl)]
        omega
  · rw [getCell_row_oob g r c (by rw [hwf.1]; omega)]
    omega

theorem grid_ext (a b : Grid) (size : Nat) (ha : wellFormed a size)
    (hb : wellFormed b size)
    (h : ∀ r c, r < size → c < size → getCell a r c = getCell b r c) : a = b := by
  apply List.ext_getElem (by rw [ha.1, hb.1])
  intro r hra hrb
  apply List.ext_getElem
  · rw [ha.2 _ (List.getElem_mem hra), hb.2 _ (List.getElem_mem hrb)]
  · intro c hca hcb
    have hr : r < size := by rw [← ha.1]; exact hra
    have hc : c < size := by
      rw [← ha.2 _ (List.getElem_mem hra)]; exact hca
    rw [← getCell_eq_getElem a r c hra hca, ← getCell_eq_getElem b r c hrb hcb]
    exact h r c hr hc

theorem mem_allCells (size : Nat) (p : Nat × Nat) :
    p ∈ allCells size ↔ p.1 < size ∧ p.2 < size := by
  unfold allCells
  simp only [List.mem_flatMap, List.mem_map, List.mem_range]
  constructor
  · rintro ⟨r, hr, c, hc, rfl⟩
    exact ⟨hr, hc⟩
  · rintro ⟨h1, h2⟩
    exact ⟨p.1, h1, p.2, h2, rfl⟩

theorem allCells_nodup (size : Nat) : (allCells size).Nodup := by
  unfold allCells
  rw [List.nodup_flatMap]
  constructor
  · intro r _
    exact List.Nodup.map (fun a b hab => by simpa using hab) (List.nodup_range size)
  · rw [List.pairwise_iff_forall_sublist]
    intro r1 r2 hsub
    have hne : r1 ≠ r2 := by
      intro he
      subst he
      exact absurd (hsub.nodup (List.nodup_range size)) (by simp)
    intro p hp1 hp2
    simp only [List.mem_map, List.mem_range] at hp1 hp2
    obtain ⟨c1, _, rfl⟩ := hp1
    obtain ⟨c2, _, he⟩ := hp2
    rw [Prod.mk.injEq] at he
    exact hne (by omega)

theorem allCells_length (size : Nat) : (allCells size).length = size * size := by
  unfold allCells
  rw [List.length_flatMap]
  have : List.map (List.length ∘ fun r => (List.range size).map fun c => (r, c))
      (List.range size) = List.map (fun _ => size) (List.range size) := by
    apply List.map_congr_left
    intro r _
    simp
  rw [this]
  simp [List.sum_replicate, Nat.smul_one_eq_cast]

theorem countZeros_le (size : Nat) (g : Grid) : countZeros size g ≤ size * size := by
  unfold countZeros
  calc (allCells size).countP _ ≤ (allCells size).length := List.countP_le_length _
    _ = size * size := allCells_length size

/-- Changing the truth of the predicate at exactly one list member increments
the count. -/
theorem countP_update_true_false {α : Type} (l : List α) (f f2 : α → Bool)
    (a : α) (hn : l.Nodup) (ha : a ∈ l) (hfa : f a = true) (hf2a : f2 a = false)
    (hagree : ∀ b ∈ l, b ≠ a → f b = f2 b) :
    l.countP f = l.countP f2 + 1 := by
  obtain ⟨s, t, rfl⟩ := List.append_of_mem ha
  rw [List.nodup_append] at hn
  obtain ⟨hs, hat, hdisj⟩ := hn
  have hanots : a ∉ s := fun hmem => hdisj hmem (List.mem_cons_self a t)
  have hanott : a ∉ t := (List.nodup_cons.mp hat).1
  have hcs : s.countP f = s.countP f2 :=
    List.countP_congr fun x hx => by
      rw [hagree x (List.mem_append_left _ hx) (fun he => hanots (he ▸ hx))]
  have hct : t.countP f = t.countP f2 :=
    List.countP_congr fun x hx => by
      rw [hagree x (List.mem_append_right _ (List.mem_cons_of_mem a hx))
        (fun he => hanott (he ▸ hx))]
  rw [List.countP_append, List.countP_append, List.countP_cons, List.countP_cons,
    hfa, hf2a, hcs, hct]
  simp
  omega

theorem findEmpty_none_iff_countZeros (g : Grid) (size : Nat) :
    findEmpty g size = none ↔ countZeros size g = 0 := by
  rw [findEmpty_none_iff]
  unfold countZeros
  rw [List.countP_eq_zero]
  constructor
  · intro h p hp
    rw [mem_allCells] at hp
    simpa using h p.1 p.2 hp.1 hp.2
  · intro h r c hr hc
    have := h (r, c) ((mem_allCells size (r, c)).mpr ⟨hr, hc⟩)
    simpa using this

theorem countZeros_pos (g : Grid) (size r c : Nat) (hr : r < size) (hc : c < size)
    (hz : getCell g r c = 0) : 1 ≤ countZeros size g := by
  unfold countZeros
  rw [Nat.succ_le_iff, List.countP_pos_iff]
  exact ⟨(r, c), (mem_allCells size (r, c)).mpr ⟨hr, hc⟩, by simpa using hz⟩

/-- Filling an empty in-range cell with a nonzero value removes exactly one
zero. -/
theorem countZeros_setCell_fill (g : Grid) (size r c v : Nat)
    (hwf : wellFormed g size) (hr : r < size) (hc : c < size)
    (hz : getCell g r c = 0) (hv : v ≠ 0) :
    countZeros size g = countZeros size (setCell g r c v) + 1 := by
  have hrl : r < g.length := by rw [hwf.1]; exact hr
  have hcl : c < (g[r]).length := by
    rw [hwf.2 _ (List.getElem_mem hrl)]; exact hc
  unfold countZeros
  refine countP_update_true_false (allCells size) _ _ (r, c) (allCells_nodup size)
    ((mem_allCells size (r, c)).mpr ⟨hr, hc⟩) (by simpa using hz) ?_ ?_
  · rw [getCell_setCell_self g r c v hrl hcl]
    simpa using hv
  · intro b hb hbne
    have : b.1 ≠ r ∨ b.2 ≠ c := by
      by_contra hcon
      push_neg at hcon
      exact hbne (Prod.ext hcon.1 hcon.2)
    rw [getCell_setCell_ne g r c v b.1 b.2 this]

/-- Digging a nonzero in-range cell adds exactly one zero. -/
theorem countZeros_setCell_dig (g : Grid) (size r c : Nat)
    (hwf : wellFormed g size) (hr : r < size) (hc : c < size)
    (hnz : getCell g r c ≠ 0) :
    countZeros size (setCell g r c 0) = countZeros size g + 1 := by
  have hrl : r < g.length := by rw [hwf.1]; exact hr
  have hcl : c < (g[r]).length := by
    rw [hwf.2 _ (List.getElem_mem hrl)]; exact hc
  unfold countZeros
  refine countP_update_true_false (allCells size) _ _ (r, c) (allCells_nodup size)
    ((mem_allCells size (r, c)).mpr ⟨hr, hc⟩) ?_ (by simpa using hnz) ?_
  · rw [getCell_setCell_self g r c 0 hrl hcl]
    simp
  · intro b hb hbne
    have : b.1 ≠ r ∨ b.2 ≠ c := by
      by_contra hcon
      push_neg at hcon
      exact hbne (Prod.ext hcon.1 hcon.2)
    rw [getCell_setCell_ne g r c 0 b.1 b.2 this]

theorem getBlockDimensions_pos (size : Nat) :
    0 < (getBlockDimensions size).1 ∧ 0 < (getBlockDimensions size).2 := by
  unfold getBlockDimensions
  split_ifs <;> simp

/-- A successful `isSafe` check means no cell of any constraint group
containing `(r, c)` holds the candidate value. -/
theorem isSafe_group_safe (g : Grid) (size r c v : Nat)
    (hsafe : isSafe g r c v size = true) :
    ∀ grp ∈ groups size, (r, c) ∈ grp → ∀ q ∈ grp, getCell g q.1 q.2 ≠ v := by
  rw [isSafe_true_iff] at hsafe
  obtain ⟨hrow, hcol, hblock⟩ := hsafe
  intro grp hgrp hpmem q hq
  rw [mem_groups] at hgrp
  rcases hgrp with ⟨r0, hr0, rfl⟩ | ⟨c0, hc0, rfl⟩ | ⟨br, bc, hbr1, hbr2, hbc1, hbc2, rfl⟩
  · rw [mem_rowGroup] at hpmem hq
    have : q = (r, q.2) := Prod.ext (by omega) rfl
    rw [this]
    exact hrow q.2 hq.2
  · rw [mem_colGroup] at hpmem hq
    have : q = (q.1, c) := Prod.ext rfl (by omega)
    rw [this]
    exact hcol q.1 hq.2
  · rw [mem_blockGroup] at hpmem hq
    obtain ⟨ha1, ha2, ha3, ha4⟩ := hpmem
    obtain ⟨hb1, hb2, hb3, hb4⟩ := hq
    have horigR : r - r % (getBlockDimensions size).1 = br :=
      block_origin_eq _ br r hbr2 ha1 ha2
    have horigC : c - c % (getBlockDimensions size).2 = bc :=
      block_origin_eq _ bc c hbc2 ha3 ha4
    have hq1 : q.1 = r - r % (getBlockDimensions size).1 + (q.1 - br) := by omega
    have hq2 : q.2 = c - c % (getBlockDimensions size).2 + (q.2 - bc) := by omega
    have := hblock (q.1 - br) (by omega) (q.2 - bc) (by omega)
    rw [← hq1, ← hq2] at this
    exact this

/-- A failed `isSafe` check exhibits a conflicting cell inside a constraint
group containing `(r, c)`. -/
theorem isSafe_false_conflict (g : Grid) (size r c v : Nat) (hr : r < size)
    (hc : c < size) (hclash : isSafe g r c v size = false) :
    ∃ grp ∈ groups size, (r, c) ∈ grp ∧ ∃ q ∈ grp, getCell g q.1 q.2 = v := by
  obtain ⟨hbR, hbC⟩ := getBlockDimensions_pos size
  have hmodR : r % (getBlockDimensions size).1 ≤ r := Nat.mod_le _ _
  have hmodC : c % (getBlockDimensions size).2 ≤ c := Nat.mod_le _ _
  have hmodR2 : r % (getBlockDimensions size).1 < (getBlockDimensions size).1 :=
    Nat.mod_lt r hbR
  have hmodC2 : c % (getBlockDimensions size).2 < (getBlockDimensions size).2 :=
    Nat.mod_lt c hbC
  by_cases h1 : ∀ c2, c2 < size → getCell g r c2 ≠ v
  · by_cases h2 : ∀ r2, r2 < size → getCell g r2 c ≠ v
    · have h3 : ¬ (∀ dr, dr < (getBlockDimensions size).1 →
          ∀ dc, dc < (getBlockDimensions size).2 →
            getCell g (r - r % (getBlockDimensions size).1 + dr)
              (c - c % (getBlockDimensions size).2 + dc) ≠ v) := by
        intro hall
        have := (isSafe_true_iff g r c v size).mpr ⟨h1, h2, hall⟩
        rw [hclash] at this
        cases this
      push_neg at h3
      obtain ⟨dr, hdr, dc, hdc, hv⟩ := h3
      refine ⟨blockGroup (getBlockDimensions size).1 (getBlockDimensions size).2
        (r - r % (getBlockDimensions size).1) (c - c % (getBlockDimensions size).2),
        (mem_groups size _).mpr (Or.inr (Or.inr
          ⟨r - r % (getBlockDimensions size).1, c - c % (getBlockDimensions size).2,
            by omega, sub_mod_mod r _, by omega, sub_mod_mod c _, rfl⟩)),
        (mem_blockGroup _ _ _ _ _).mpr ⟨by omega, by omega, by omega, by omega⟩,
        (r - r % (getBlockDimensions size).1 + dr,
          c - c % (getBlockDimensions size).2 + dc),
        (mem_blockGroup _ _ _ _ _).mpr ⟨by omega, by omega, by omega, by omega⟩, hv⟩
    · push_neg at h2
      obtain ⟨r2, hr2, hv⟩ := h2
      exact ⟨colGroup size c, (mem_groups size _).mpr (Or.inr (Or.inl ⟨c, hc, rfl⟩)),
        (mem_colGroup size c _).mpr ⟨rfl, hr⟩,
        (r2, c), (mem_colGroup size c _).mpr ⟨rfl, hr2⟩, hv⟩
  · push_neg at h1
    obtain ⟨c2, hc2, hv⟩ := h1
    exact ⟨rowGroup size r, (mem_groups size _).mpr (Or.inl ⟨r, hr, rfl⟩),
      (mem_rowGroup size r _).mpr ⟨rfl, hc⟩,
      (r, c2), (mem_rowGroup size r _).mpr ⟨rfl, hc2⟩, hv⟩

/-- Placing a safe value at an empty in-range cell of a duplicate-free grid
keeps it duplicate-free. -/
theorem valid_setCell_of_isSafe (g : Grid) (size r c v : Nat)
    (hwf : wellFormed g size) (hr : r < size) (hc : c < size)
    (_hz : getCell g r c = 0) (_hv : v ≠ 0)
    (hsafe : isSafe g r c v size = true) (hvalid : ValidGrid g size) :
    ValidGrid (setCell g r c v) size := by
  have hrl : r < g.length := by rw [hwf.1]; exact hr
  have hcl : c < (g[r]).length := by
    rw [hwf.2 _ (List.getElem_mem hrl)]; exact hc
  have hself : getCell (setCell g r c v) r c = v :=
    getCell_setCell_self g r c v hrl hcl
  intro grp hgrp p hp q hq hne hp0
  by_cases hpcell : p = (r, c)
  · subst hpcell
    have hqcoord : q.1 ≠ r ∨ q.2 ≠ c := by
      by_contra hcon
      push_neg at hcon
      exact hne (Prod.ext hcon.1 hcon.2).symm
    rw [hself, getCell_setCell_ne g r c v q.1 q.2 hqcoord]
    intro he
    exact isSafe_group_safe g size r c v hsafe grp hgrp hp q hq he.symm
  · have hpcoord : p.1 ≠ r ∨ p.2 ≠ c := by
      by_contra hcon
      push_neg at hcon
      exact hpcell (Prod.ext hcon.1 hcon.2)
    rw [getCell_setCell_ne g r c v p.1 p.2 hpcoord] at hp0 ⊢
    by_cases hqcell : q = (r, c)
    · subst hqcell
      rw [hself]
      intro he
      exact isSafe_group_safe g size r c v hsafe grp hgrp hq p hp he
    · have hqcoord : q.1 ≠ r ∨ q.2 ≠ c := by
        by_contra hcon
        push_neg at hcon
        exact hqcell (Prod.ext hcon.1 hcon.2)
      rw [getCell_setCell_ne g r c v q.1 q.2 hqcoord]
      exact hvalid grp hgrp p hp q hq hne hp0

/-- Every grid produced by `fillAll` agrees with the start grid on its
nonzero cells. -/
theorem fillAll_agrees (size : Nat) :
    ∀ (fuel : Nat) (g g2 : Grid), g2 ∈ fillAll size fuel g →
      ∀ r c, getCell g r c ≠ 0 → getCell g2 r c = getCell g r c := by
  intro fuel
  induction fuel with
  | zero => intro g g2 h; cases h
  | succ fuel ih =>
    intro g g2 h r c hnz
    unfold fillAll at h
    rcases hfe : findEmpty g size with _ | ⟨r0, c0⟩
    · rw [hfe] at h
      simp at h
      subst h
      rfl
    · rw [hfe] at h
      rw [List.mem_flatMap] at h
      obtain ⟨v, hvmem, hmem⟩ := h
      obtain ⟨-, -, hz0⟩ := findEmpty_some g size r0 c0 hfe
      have hne : r ≠ r0 ∨ c ≠ c0 := by
        by_contra hcon
        push_neg at hcon
        rw [hcon.1, hcon.2] at hnz
        exact hnz hz0
      have hg1 : getCell (setCell g r0 c0 v) r c = getCell g r c :=
        getCell_setCell_ne g r0 c0 v r c hne
      rw [← hg1]
      exact ih (setCell g r0 c0 v) g2 hmem r c (by rw [hg1]; exact hnz)

theorem fillAll_wellFormed (size : Nat) :
    ∀ (fuel : Nat) (g g2 : Grid), g2 ∈ fillAll size fuel g →
      wellFormed g size → wellFormed g2 size := by
  intro fuel
  induction fuel with
  | zero => intro g g2 h; cases h
  | succ fuel ih =>
    intro g g2 h hwf
    unfold fillAll at h
    rcases hfe : findEmpty g size with _ | ⟨r0, c0⟩
    · rw [hfe] at h
      simp at h
      subst h
      exact hwf
    · rw [hfe] at h
      rw [List.mem_flatMap] at h
      obtain ⟨v, hvmem, hmem⟩ := h
      exact ih _ g2 hmem (wellFormed_setCell g size r0 c0 v hwf)

/-- Every grid produced by `fillAll` is full over `1 .. size` on the
in-range cells. -/
theorem fillAll_values (size : Nat) :
    ∀ (fuel : Nat) (g g2 : Grid), g2 ∈ fillAll size fuel g →
      entriesLe g size →
      ∀ r c, r < size → c < size → 1 ≤ getCell g2 r c ∧ getCell g2 r c ≤ size := by
  intro fuel
  induction fuel with
  | zero => intro g g2 h; cases h
  | succ fuel ih =>
    intro g g2 h hle r c hr hc
    unfold fillAll at h
    rcases hfe : findEmpty g size with _ | ⟨r0, c0⟩
    · rw [hfe] at h
      simp at h
      subst h
      rw [findEmpty_none_iff] at hfe
      have := hfe r c hr hc
      have := hle r c
      omega
    · rw [hfe] at h
      rw [List.mem_flatMap] at h
      obtain ⟨v, hvmem, hmem⟩ := h
      rw [mem_rangeFromOne] at hvmem
      exact ih _ g2 hmem (entriesLe_setCell g size r0 c0 v hle hvmem.2) r c hr hc

/-- Every full grid over `1 .. size` extending the start grid is produced by
`fillAll` (given enough fuel). -/
theorem fillAll_complete (size : Nat) :
    ∀ (fuel : Nat) (g : Grid), wellFormed g size → countZeros size g < fuel →
      ∀ g2, wellFormed g2 size →
        (∀ r c, r < size → c < size → 1 ≤ getCell g2 r c ∧ getCell g2 r c ≤ size) →
        (∀ r c, r < size → c < size → getCell g r c ≠ 0 →
          getCell g2 r c = getCell g r c) →
        g2 ∈ fillAll size fuel g := by
  intro fuel
  induction fuel with
  | zero =>
    intro g _ hfuel
    omega
  | succ fuel ih =>
    intro g hwf hfuel g2 hwf2 hvals hagree
    unfold fillAll
    rcases hfe : findEmpty g size with _ | ⟨r0, c0⟩
    · have : g2 = g := by
        apply grid_ext g2 g size hwf2 hwf
        intro r c hr hc
        rw [findEmpty_none_iff] at hfe
        exact hagree r c hr hc (hfe r c hr hc)
      rw [this]
      exact List.mem_cons_self g []
    · obtain ⟨hr0, hc0, hz0⟩ := findEmpty_some g size r0 c0 hfe
      rw [List.mem_flatMap]
      have hv := hvals r0 c0 hr0 hc0
      refine ⟨getCell g2 r0 c0, (mem_rangeFromOne size _).mpr hv, ?_⟩
      have hwf1 := wellFormed_setCell g size r0 c0 (getCell g2 r0 c0) hwf
      have hcz : countZeros size g = countZeros size (setCell g r0 c0 (getCell g2 r0 c0)) + 1 :=
        countZeros_setCell_fill g size r0 c0 _ hwf hr0 hc0 hz0 (by omega)
      refine ih _ hwf1 (by omega) g2 hwf2 hvals ?_
      intro r c hr hc hnz
      by_cases hcell : r = r0 ∧ c = c0
      · obtain ⟨rfl, rfl⟩ := hcell
        have hrl : r < g.length := by rw [hwf.1]; exact hr
        have hcl : c < (g[r]).length := by
          rw [hwf.2 _ (List.getElem_mem hrl)]; exact hc
        rw [getCell_setCell_self g r c _ hrl hcl]
      · have hne : r ≠ r0 ∨ c ≠ c0 := by tauto
        rw [getCell_setCell_ne g r0 c0 _ r c hne] at hnz ⊢
        exact hagree r c hr hc hnz

theorem fillAll_nodup (size : Nat) :
    ∀ (fuel : Nat) (g : Grid), wellFormed g size → (fillAll size fuel g).Nodup := by
  intro fuel
  induction fuel with
  | zero =>
    intro g _
    exact List.Pairwise.nil
  | succ fuel ih =>
    intro g hwf
    unfold fillAll
    rcases hfe : findEmpty g size with _ | ⟨r0, c0⟩
    · exact List.nodup_singleton g
    · obtain ⟨hr0, hc0, hz0⟩ := findEmpty_some g size r0 c0 hfe
      have hrl : r0 < g.length := by rw [hwf.1]; exact hr0
      have hcl : c0 < (g[r0]).length := by
        rw [hwf.2 _ (List.getElem_mem hrl)]; exact hc0
      rw [List.nodup_flatMap]
      constructor
      · intro v _
        exact ih _ (wellFormed_setCell g size r0 c0 v hwf)
      · rw [List.pairwise_iff_forall_sublist]
        intro v1 v2 hsub
        have hne : v1 ≠ v2 := by
          intro he
          subst he
          exact absurd (hsub.nodup (rangeFromOne_nodup size)) (by simp)
        have hv1 : 1 ≤ v1 ∧ v1 ≤ size := by
          rw [← mem_rangeFromOne]
          exact hsub.subset (List.mem_cons_self v1 _)
        have hv2 : 1 ≤ v2 ∧ v2 ≤ size := by
          rw [← mem_rangeFromOne]
          exact hsub.subset (List.mem_cons_of_mem v1 (List.mem_cons_self v2 _))
        intro g2 hg21 hg22
        have h1 : getCell g2 r0 c0 = v1 := by
          rw [fillAll_agrees size fuel _ g2 hg21 r0 c0
            (by rw [getCell_setCell_self g r0 c0 v1 hrl hcl]; omega)]
          exact getCell_setCell_self g r0 c0 v1 hrl hcl
        have h2 : getCell g2 r0 c0 = v2 := by
          rw [fillAll_agrees size fuel _ g2 hg22 r0 c0
            (by rw [getCell_setCell_self g r0 c0 v2 hrl hcl]; omega)]
          exact getCell_setCell_self g r0 c0 v2 hrl hcl
        exact hne (by omega)

/-- An illegal placement can never be completed to a duplicate-free grid:
the conflict created by the placement survives every filling. -/
theorem fillAll_not_valid_of_unsafe (size fuel : Nat) (g : Grid) (r c v : Nat)
    (hwf : wellFormed g size) (hr : r < size) (hc : c < size)
    (hz : getCell g r c = 0) (hv1 : 1 ≤ v)
    (hclash : isSafe g r c v size = false) :
    ∀ g2 ∈ fillAll size fuel (setCell g r c v), ¬ ValidGrid g2 size := by
  obtain ⟨grp, hgrp, hpmem, q, hq, hqval⟩ :=
    isSafe_false_conflict g size r c v hr hc hclash
  have hqne : q ≠ ((r, c) : Nat × Nat) := by
    intro he
    subst he
    have h2 : getCell g r c = v := hqval
    omega
  have hqcoord : q.1 ≠ r ∨ q.2 ≠ c := by
    by_contra hcon
    push_neg at hcon
    exact hqne (Prod.ext hcon.1 hcon.2)
  have hrl : r < g.length := by rw [hwf.1]; exact hr
  have hcl : c < (g[r]).length := by
    rw [hwf.2 _ (List.getElem_mem hrl)]; exact hc
  have hg1q : getCell (setCell g r c v) q.1 q.2 = v := by
    rw [getCell_setCell_ne g r c v q.1 q.2 hqcoord]
    exact hqval
  have hg1p : getCell (setCell g r c v) r c = v :=
    getCell_setCell_self g r c v hrl hcl
  intro g2 hg2 hval
  have ha := fillAll_agrees size fuel _ g2 hg2
  have h2q : getCell g2 q.1 q.2 = v := by
    rw [ha q.1 q.2 (by rw [hg1q]; omega)]
    exact hg1q
  have h2p : getCell g2 r c = v := by
    rw [ha r c (by rw [hg1p]; omega)]
    exact hg1p
  exact hval grp hgrp ((r, c) : Nat × Nat) hpmem q hq (Ne.symm hqne)
    (by rw [h2p]; omega) (h2p.trans h2q.symm)

/-- A complete grid without duplicates is its own unique solution. -/
theorem numCompletions_of_full (g : Grid) (size : Nat)
    (hfe : findEmpty g size = none) (hvalid : ValidGrid g size) :
    numCompletions g size = 1 := by
  unfold numCompletions completionsList
  have hz : countZeros size g = 0 := (findEmpty_none_iff_countZeros g size).mp hfe
  rw [hz]
  show ((fillAll size 1 g).filter _).length = 1
  unfold fillAll
  rw [hfe]
  simp [hvalid]

/-- The completions of a grid split by the value placed at its first empty
cell. -/
theorem numCompletions_decomp (g : Grid) (size r c : Nat)
    (hwf : wellFormed g size) (hfe : findEmpty g size = some (r, c)) :
    numCompletions g size =
      ((rangeFromOne size).map fun v => numCompletions (setCell g r c v) size).sum := by
  obtain ⟨hr, hc, hz⟩ := findEmpty_some g size r c hfe
  unfold numCompletions completionsList
  have hstep : fillAll size (countZeros size g + 1) g =
      (rangeFromOne size).flatMap fun v =>
        fillAll size (countZeros size g) (setCell g r c v) := by
    conv_lhs => rw [fillAll]
    rw [hfe]
  rw [hstep, List.filter_flatMap, List.length_flatMap]
  congr 1
  apply List.map_congr_left
  intro v hvmem
  rw [mem_rangeFromOne] at hvmem
  have hcz : countZeros size g = countZeros size (setCell g r c v) + 1 :=
    countZeros_setCell_fill g size r c v hwf hr hc hz (by omega)
  simp only [Function.comp]
  rw [hcz]

/-- The count returned by the candidate loop: each safe candidate
contributes the completions of the grid with that candidate placed, clipped
at `limit`. -/
theorem tryNums_count (size limit F : Nat) (bt : Grid → Nat → Grid × Nat)
    (hbt1 : ∀ g cnt, (bt g cnt).1 = g)
    (hbt : ∀ g cnt, wellFormed g size → entriesLe g size → ValidGrid g size →
      countZeros size g < F → cnt ≤ limit →
      (bt g cnt).2 = min (cnt + numCompletions g size) limit)
    (r c : Nat) (hr : r < size) (hc : c < size) :
    ∀ (nums : List Nat) (g : Grid) (cnt : Nat),
      (∀ v ∈ nums, 1 ≤ v ∧ v ≤ size) →
      wellFormed g size → entriesLe g size → ValidGrid g size →
      countZeros size g ≤ F → getCell g r c = 0 → cnt ≤ limit →
      (tryNums bt size limit r c nums g cnt).2 =
        min (cnt + (nums.map fun v =>
          if isSafe g r c v size then numCompletions (setCell g r c v) size else 0).sum)
          limit := by
  intro nums
  induction nums with
  | nil =>
    intro g cnt _ _ _ _ _ _ hcnt
    simp only [tryNums, List.map_nil, List.sum_nil, Nat.add_zero]
    omega
  | cons v rest ih =>
    intro g cnt hvals hwf hle hvalid hcz hz hcnt
    have hv := hvals v (List.mem_cons_self v rest)
    rw [List.map_cons, List.sum_cons]
    by_cases hsafe : isSafe g r c v size
    · have hg1wf : wellFormed (setCell g r c v) size :=
        wellFormed_setCell g size r c v hwf
      have hg1le : entriesLe (setCell g r c v) size :=
        entriesLe_setCell g size r c v hle hv.2
      have hg1valid : ValidGrid (setCell g r c v) size :=
        valid_setCell_of_isSafe g size r c v hwf hr hc hz (by omega) hsafe hvalid
      have hcz1 : countZeros size g = countZeros size (setCell g r c v) + 1 :=
        countZeros_setCell_fill g size r c v hwf hr hc hz (by omega)
      have hbt2 := hbt (setCell g r c v) cnt hg1wf hg1le hg1valid (by omega) hcnt
      have hbtg := hbt1 (setCell g r c v) cnt
      have hstep : tryNums bt size limit r c (v :: rest) g cnt =
          (if limit ≤ (bt (setCell g r c v) cnt).2 then
            (setCell (bt (setCell g r c v) cnt).1 r c 0, (bt (setCell g r c v) cnt).2)
          else tryNums bt size limit r c rest
            (setCell (bt (setCell g r c v) cnt).1 r c 0) (bt (setCell g r c v) cnt).2) := by
        simp only [tryNums, if_pos hsafe]
      rw [hstep]
      have hg3 : setCell (bt (setCell g r c v) cnt).1 r c 0 = g := by
        rw [hbtg]
        exact setCell_setCell_zero g r c v hz
      rw [hg3]
      by_cases hlim : limit ≤ (bt (setCell g r c v) cnt).2
      · rw [if_pos hlim]
        simp only
        rw [hbt2] at hlim ⊢
        rw [if_pos hsafe]
        omega
      · rw [if_neg hlim]
        rw [ih g (bt (setCell g r c v) cnt).2
          (fun w hw => hvals w (List.mem_cons_of_mem v hw)) hwf hle hvalid hcz hz
          (by rw [hbt2]; omega)]
        rw [hbt2] at hlim ⊢
        rw [if_pos hsafe]
        omega
    · have hstep : tryNums bt size limit r c (v :: rest) g cnt =
          tryNums bt size limit r c rest g cnt := by
        simp only [tryNums, if_neg hsafe]
      rw [hstep, ih g cnt (fun w hw => hvals w (List.mem_cons_of_mem v hw)) hwf hle
        hvalid hcz hz hcnt, if_neg hsafe]
      omega

/-- The count returned by `backtrack` on a duplicate-free grid: the bounded
completion count, shifted by the running count and clipped at `limit`. -/
theorem backtrack_count (size limit : Nat) :
    ∀ (fuel : Nat) (g : Grid) (cnt : Nat),
      wellFormed g size → entriesLe g size → ValidGrid g size →
      countZeros size g < fuel → cnt ≤ limit →
      (backtrack size limit fuel g cnt).2 =
        min (cnt + numCompletions g size) limit := by
  intro fuel
  induction fuel with
  | zero =>
    intro g cnt _ _ _ hf _
    omega
  | succ fuel ih =>
    intro g cnt hwf hle hvalid hf hcnt
    unfold backtrack
    by_cases hlim : limit ≤ cnt
    · rw [if_pos hlim]
      simp only
      omega
    · rw [if_neg hlim]
      rcases hfe : findEmpty g size with _ | ⟨r, c⟩
      · simp only
        have h1 : numCompletions g size = 1 := numCompletions_of_full g size hfe hvalid
        omega
      · obtain ⟨hr, hc, hz⟩ := findEmpty_some g size r c hfe
        rw [tryNums_count size limit fuel (backtrack size limit fuel)
          (fun g2 cnt2 => backtrack_fst size limit fuel g2 cnt2)
          (fun g2 cnt2 => ih g2 cnt2) r c hr hc (rangeFromOne size) g cnt
          (fun w hw => (mem_rangeFromOne size w).mp hw) hwf hle hvalid (by omega) hz
          (by omega)]
        have hdecomp := numCompletions_decomp g size r c hwf hfe
        have hsum : ((rangeFromOne size).map fun v =>
            if isSafe g r c v size then numCompletions (setCell g r c v) size else 0).sum =
            ((rangeFromOne size).map fun v =>
              numCompletions (setCell g r c v) size).sum := by
          congr 1
          apply List.map_congr_left
          intro v hvmem
          by_cases hsafe : isSafe g r c v size
          · rw [if_pos hsafe]
          · rw [if_neg hsafe]
            rw [mem_rangeFromOne] at hvmem
            have hzero : numCompletions (setCell g r c v) size = 0 := by
              unfold numCompletions completionsList
              rw [List.length_eq_zero, List.filter_eq_nil_iff]
              intro g2 hg2
              simp only [decide_eq_true_eq]
              exact fillAll_not_valid_of_unsafe size _ g r c v hwf hr hc hz
                (by omega) (by simpa using hsafe) g2 hg2
            omega
        rw [hsum, ← hdecomp]

/-- C2: on a well-formed board without duplicates among its nonzero cells
(values in `[0, size]`), `countSolutions` returns exactly
`min(actual number of distinct completions, limit)`; `completionsList`
enumerates the distinct completions — each exactly once. -/
theorem countSolutions_exact (g : Grid) (size limit : Nat)
    (hwf : wellFormed g size) (hle : entriesLe g size) (hvalid : ValidGrid g size)
    (_hsize : size = 6 ∨ size = 9) :
    countSolutions g size limit = min (numCompletions g size) limit ∧
    (∀ g2, g2 ∈ completionsList g size ↔ IsCompletion g g2 size) ∧
    (completionsList g size).Nodup := by
  refine ⟨?_, ?_, ?_⟩
  · unfold countSolutions countSolutionsRun
    rw [backtrack_count size limit (size * size + 1) g 0 hwf hle hvalid
      (by have := countZeros_le size g; omega) (Nat.zero_le limit)]
    rw [Nat.zero_add]
  · intro g2
    unfold completionsList
    rw [List.mem_filter]
    constructor
    · rintro ⟨hmem, hvalB⟩
      rw [decide_eq_true_eq] at hvalB
      exact ⟨fillAll_wellFormed size _ g g2 hmem hwf,
        fillAll_values size _ g g2 hmem hle,
        fun r c _ _ hnz => fillAll_agrees size _ g g2 hmem r c hnz, hvalB⟩
    · rintro ⟨hwf2, hvals, hagree, hval2⟩
      refine ⟨fillAll_complete size _ g hwf (by omega) g2 hwf2 hvals hagree, ?_⟩
      rw [decide_eq_true_eq]
      exact hval2
  · exact List.Nodup.filter _ (fillAll_nodup size _ g hwf)

/-- Witness for `countSolutions_exact` on the one-hole 6x6 puzzle. -/
theorem countSolutions_exact_witness :
    (wellFormed sampleBoard6 6 ∧ entriesLe sampleBoard6 6 ∧
      ValidGrid sampleBoard6 6 ∧ ((6 : Nat) = 6 ∨ (6 : Nat) = 9)) ∧
    (countSolutions sampleBoard6 6 2 = min (numCompletions sampleBoard6 6) 2 ∧
      (∀ g2, g2 ∈ completionsList sampleBoard6 6 ↔ IsCompletion sampleBoard6 g2 6) ∧
      (completionsList sampleBoard6 6).Nodup) := by
  have hle : entriesLe sampleBoard6 6 :=
    entriesLe_of_wf sampleBoard6 6 (by decide) (by decide)
  exact ⟨⟨by decide, hle, by decide, Or.inl rfl⟩,
    countSolutions_exact sampleBoard6 6 2 (by decide) hle (by decide) (Or.inl rfl)⟩

theorem setCell_setCell (g : Grid) (r c a b : Nat) :
    setCell (setCell g r c a) r c b = setCell g r c b := by
  by_cases hr : r < g.length
  · show List.set (setCell g r c a) r ((getRow (setCell g r c a) r).set c b) =
      List.set g r ((getRow g r).set c b)
    rw [getRow_setCell_self g r c a hr, List.set_set]
    show List.set (List.set g r ((getRow g r).set c a)) r ((getRow g r).set c b) = _
    rw [List.set_set]
  · have h1 : setCell g r c a = g := by
      unfold setCell
      exact List.set_eq_of_length_le (Nat.le_of_not_lt hr)
    rw [h1]

/-- The invariant of the digging loop: the board stays well formed, keeps
solution count exactly 1, and its number of holes is the removal counter,
never exceeding the target. -/
theorem digLoop_invariant (size maxR : Nat) :
    ∀ (indices : List Nat) (board : Grid) (removed : Nat),
      wellFormed board size → countSolutions board size 2 = 1 →
      countZeros size board = removed → removed ≤ maxR →
      (wellFormed (digLoop size maxR indices board removed) size ∧
        countSolutions (digLoop size maxR indices board removed) size 2 = 1 ∧
        countZeros size (digLoop size maxR indices board removed) ≤ maxR) := by
  intro indices
  induction indices with
  | nil =>
    intro board removed hwf hcs hcz hle
    simp only [digLoop]
    exact ⟨hwf, hcs, by omega⟩
  | cons idx rest ih =>
    intro board removed hwf hcs hcz hle
    simp only [digLoop]
    by_cases hstop : maxR ≤ removed
    · rw [if_pos hstop]
      exact ⟨hwf, hcs, by omega⟩
    · rw [if_neg hstop]
      by_cases hzero : getCell board (idx / size) (idx % size) = 0
      · rw [if_pos hzero]
        exact ih board removed hwf hcs hcz hle
      · rw [if_neg hzero]
        obtain ⟨hrl, hcl⟩ := lt_of_getCell_ne_zero board _ _ hzero
        have hrsize : idx / size < size := by
          have hcopy := hrl
          rw [hwf.1] at hcopy
          exact hcopy
        have hcsize : idx % size < size := by
          have hcopy := hcl
          rw [hwf.2 _ (List.getElem_mem hrl)] at hcopy
          exact hcopy
        by_cases hnotone :
            countSolutions (clone2D (setCell board (idx / size) (idx % size) 0)) size 2 ≠ 1
        · rw [if_pos hnotone]
          have hrevert : setCell (setCell board (idx / size) (idx % size) 0)
              (idx / size) (idx % size) (getCell board (idx / size) (idx % size)) = board := by
            rw [setCell_setCell, setCell_getCell_self]
          rw [hrevert]
          exact ih board removed hwf hcs hcz hle
        · rw [if_neg hnotone]
          push_neg at hnotone
          rw [clone2D_eq] at hnotone
          have hwf1 := wellFormed_setCell board size (idx / size) (idx % size) 0 hwf
          have hcz1 : countZeros size (setCell board (idx / size) (idx % size) 0) =
              removed + 1 := by
            rw [countZeros_setCell_dig board size _ _ hwf hrsize hcsize hzero, hcz]
          exact ih _ (removed + 1) hwf1 hnotone hcz1 (by omega)

/-- C1: for every complete duplicate-free solution grid and every requested
clue count, the puzzle returned by the digger (under every possible shuffled
visit order) still has solution count exactly 1 under the counter with
limit 2, has at most `size² - cluesToKeep` holes, and is always a
well-formed grid — the digger never fails. -/
theorem makeUniquePuzzle_spec (solution : Grid) (size clues : Nat)
    (indices : List Nat) (hwf : wellFormed solution size)
    (_hsize : size = 6 ∨ size = 9) (hfull : countZeros size solution = 0)
    (_hvalid : ValidGrid solution size) :
    countSolutions (makeUniquePuzzleFromSolution solution clues indices) size 2 = 1 ∧
    countZeros size (makeUniquePuzzleFromSolution solution clues indices) ≤
      size * size - clues ∧
    wellFormed (makeUniquePuzzleFromSolution solution clues indices) size := by
  have hlen : solution.length = size := hwf.1
  have hfe : findEmpty solution size = none :=
    (findEmpty_none_iff_countZeros solution size).mpr hfull
  have hbase : countSolutions solution size 2 = 1 := by
    show (backtrack size 2 (size * size + 1) solution 0).2 = 1
    rw [backtrack]
    rw [if_neg (by omega), hfe]
  unfold makeUniquePuzzleFromSolution
  rw [clone2D_eq, hlen]
  obtain ⟨h1, h2, h3⟩ := digLoop_invariant size (size * size - clues) indices solution 0
    hwf hbase hfull (Nat.zero_le _)
  exact ⟨h2, h3, h1⟩

/-- Witness for `makeUniquePuzzle_spec`: the 6x6 solution, 18 clues
requested, a two-cell visit order. -/
theorem makeUniquePuzzle_spec_witness :
    (wellFormed SOLUTION_6 6 ∧ ((6 : Nat) = 6 ∨ (6 : Nat) = 9) ∧
      countZeros 6 SOLUTION_6 = 0 ∧ ValidGrid SOLUTION_6 6) ∧
    (countSolutions (makeUniquePuzzleFromSolution SOLUTION_6 18 [0, 1]) 6 2 = 1 ∧
      countZeros 6 (makeUniquePuzzleFromSolution SOLUTION_6 18 [0, 1]) ≤ 6 * 6 - 18 ∧
      wellFormed (makeUniquePuzzleFromSolution SOLUTION_6 18 [0, 1]) 6) :=
  ⟨⟨by decide, Or.inl rfl, by decide, by decide⟩,
    makeUniquePuzzle_spec SOLUTION_6 6 18 [0, 1] (by decide) (Or.inl rfl)
      (by decide) (by decide)⟩
